import Mathlib

/-!
Verification of the core of the `web_lab1` text search engine:
inverted index construction (`inverted_index.py`), Boolean retrieval
(`boolean_retrieval.py`) and the sparse TF-IDF vector model
(`vector_retrieval.py`).

Python dictionaries are modelled as association lists (key-unique,
insertion ordered), Python sets of doc ids as `Finset String`, floats as
real numbers.
-/

namespace SearchEngine

/-- Association-list lookup, modelling Python `d.get(k)` / `k in d`. -/
def alGet {κ α : Type} [DecidableEq κ] : List (κ × α) → κ → Option α
  | [], _ => none
  | (k, v) :: rest, k0 => if k = k0 then some v else alGet rest k0

/-- Association-list update, modelling Python `d[k] = f(d.get(k))`:
an existing key keeps its position, a new key is appended at the end
(Python dicts are insertion ordered). -/
def alUpdate {κ α : Type} [DecidableEq κ] (k0 : κ) (f : Option α → α) :
    List (κ × α) → List (κ × α)
  | [] => [(k0, f none)]
  | (k, v) :: rest =>
    if k = k0 then (k, f (some v)) :: rest else (k, v) :: alUpdate k0 f rest

/-- The keys of an association list, in order. -/
def alKeys {κ α : Type} (l : List (κ × α)) : List κ := l.map Prod.fst

theorem alGet_alUpdate {κ α : Type} [DecidableEq κ] (k0 : κ)
    (f : Option α → α) (l : List (κ × α)) (k : κ) :
    alGet (alUpdate k0 f l) k =
      if k0 = k then some (f (alGet l k0)) else alGet l k := by
  induction l with
  | nil => by_cases h : k0 = k <;> simp [alGet, alUpdate, h]
  | cons p rest ih =>
    obtain ⟨k1, v⟩ := p
    by_cases h1 : k1 = k0
    · subst h1
      by_cases h2 : k1 = k <;> simp [alGet, alUpdate, h2]
    · by_cases h2 : k1 = k
      · subst h2
        have : ¬ k0 = k1 := fun h => h1 h.symm
        simp [alGet, alUpdate, h1, this]
      · simp [alGet, alUpdate, h1, h2, ih]

theorem alKeys_alUpdate {κ α : Type} [DecidableEq κ] (k0 : κ)
    (f : Option α → α) (l : List (κ × α)) :
    alKeys (alUpdate k0 f l) =
      if (alGet l k0).isSome then alKeys l else alKeys l ++ [k0] := by
  induction l with
  | nil => simp [alKeys, alUpdate, alGet]
  | cons p rest ih =>
    obtain ⟨k1, v⟩ := p
    by_cases h1 : k1 = k0
    · subst h1; simp [alKeys, alUpdate, alGet]
    · have : ¬ k1 = k0 := h1
      by_cases h2 : (alGet rest k0).isSome
      · simp [alKeys, alUpdate, alGet, this, h2] at ih ⊢
        exact ih
      · simp [alKeys, alUpdate, alGet, this, h2] at ih ⊢
        exact ih

theorem alGet_eq_none_iff {κ α : Type} [DecidableEq κ]
    (l : List (κ × α)) (k : κ) : alGet l k = none ↔ k ∉ alKeys l := by
  induction l with
  | nil => simp [alGet, alKeys]
  | cons p rest ih =>
    obtain ⟨k1, v⟩ := p
    by_cases h : k1 = k
    · subst h; simp [alGet, alKeys]
    · rw [alKeys, List.map_cons, List.mem_cons]
      rw [alGet, if_neg h, ih, alKeys]
      constructor
      · intro hn hor
        rcases hor with h1 | h1
        · exact h h1.symm
        · exact hn h1
      · intro hn hm
        exact hn (Or.inr hm)

theorem alGet_isSome_iff {κ α : Type} [DecidableEq κ]
    (l : List (κ × α)) (k : κ) : (alGet l k).isSome ↔ k ∈ alKeys l := by
  constructor
  · intro h
    by_contra hmem
    rw [← alGet_eq_none_iff] at hmem
    rw [hmem] at h
    simp at h
  · intro h
    cases hg : alGet l k with
    | none => exact absurd h ((alGet_eq_none_iff l k).mp hg)
    | some v => simp

theorem mem_of_alGet_eq_some {κ α : Type} [DecidableEq κ]
    {l : List (κ × α)} {k : κ} {v : α} (h : alGet l k = some v) :
    (k, v) ∈ l := by
  induction l with
  | nil => simp [alGet] at h
  | cons p rest ih =>
    obtain ⟨k1, v1⟩ := p
    by_cases h1 : k1 = k
    · subst h1
      simp [alGet] at h
      simp [h]
    · simp [alGet, h1] at h
      simp [ih h]

theorem alGet_eq_some_of_mem {κ α : Type} [DecidableEq κ]
    {l : List (κ × α)} {k : κ} {v : α} (hnd : (alKeys l).Nodup)
    (h : (k, v) ∈ l) : alGet l k = some v := by
  induction l with
  | nil => simp at h
  | cons p rest ih =>
    obtain ⟨k1, v1⟩ := p
    rw [alKeys, List.map_cons, List.nodup_cons] at hnd
    rcases List.mem_cons.mp h with h0 | h0
    · injection h0 with h0a h0b
      subst h0a; subst h0b
      simp [alGet]
    · by_cases h1 : k1 = k
      · exfalso
        have hk : k ∈ List.map Prod.fst rest := List.mem_map_of_mem Prod.fst h0
        rw [← h1] at hk
        exact hnd.1 hk
      · rw [alGet, if_neg h1]
        exact ih hnd.2 h0

theorem alUpdate_of_alGet_eq_none {κ α : Type} [DecidableEq κ] {k0 : κ}
    (f : Option α → α) {l : List (κ × α)} (h : alGet l k0 = none) :
    alUpdate k0 f l = l ++ [(k0, f none)] := by
  induction l with
  | nil => simp [alUpdate]
  | cons p rest ih =>
    obtain ⟨k1, v⟩ := p
    by_cases h1 : k1 = k0
    · simp [alGet, h1] at h
    · simp [alGet, h1] at h
      simp [alUpdate, h1, ih h]

theorem alUpdate_alUpdate {κ α : Type} [DecidableEq κ] (k0 : κ)
    (f g : Option α → α) (l : List (κ × α)) :
    alUpdate k0 g (alUpdate k0 f l) =
      alUpdate k0 (fun o => g (some (f o))) l := by
  induction l with
  | nil => simp [alUpdate]
  | cons p rest ih =>
    obtain ⟨k1, v⟩ := p
    by_cases h1 : k1 = k0 <;> simp [alUpdate, h1, ih]

theorem alKeys_nodup_alUpdate {κ α : Type} [DecidableEq κ] (k0 : κ)
    (f : Option α → α) {l : List (κ × α)} (h : (alKeys l).Nodup) :
    (alKeys (alUpdate k0 f l)).Nodup := by
  rw [alKeys_alUpdate]
  by_cases hs : (alGet l k0).isSome
  · simp [hs, h]
  · simp [hs]
    rw [List.nodup_append]
    refine ⟨h, List.nodup_singleton k0, ?_⟩
    intro a ha
    simp
    intro haeq
    subst haeq
    rw [alGet_isSome_iff] at hs
    exact hs ha

/-! ## Inverted index (`src/inverted_index.py`) -/

/-- The state of `InvertedIndex` (`src/inverted_index.py`):
`index : term -> {doc_id: [positions]}`, `doc_lengths : doc_id -> length`,
`doc_count`, `term_freq : term -> {doc_id: frequency}`. -/
structure InvertedIndex where
  index : List (String × List (String × List Nat))
  doc_lengths : List (String × Nat)
  doc_count : Nat
  term_freq : List (String × List (String × Nat))

/-- The inner loop of `build_index`:
`for position, term in enumerate(terms): ... self.index[term][doc_id].append(position)`,
with the `if doc_id not in self.index[term]` guard folded into the
`getD []` default. -/
def addPositions (doc_id : String)
    (ix : List (String × List (String × List Nat)))
    (pts : List (Nat × String)) : List (String × List (String × List Nat)) :=
  pts.foldl (fun ix pt =>
    alUpdate pt.2
      (fun o => alUpdate doc_id (fun po => po.getD [] ++ [pt.1]) (o.getD [])) ix) ix

/-- `term_freq_in_doc`: a `defaultdict(int)` counting each term of the document. -/
def countTerms (terms : List String) : List (String × Nat) :=
  terms.foldl (fun m t => alUpdate t (fun o => o.getD 0 + 1) m) []

/-- `for term, freq in term_freq_in_doc.items(): self.term_freq[term][doc_id] = freq`. -/
def addTermFreqs (doc_id : String) (tq : List (String × List (String × Nat)))
    (tfd : List (String × Nat)) : List (String × List (String × Nat)) :=
  tfd.foldl (fun tq p =>
    alUpdate p.1 (fun o => alUpdate doc_id (fun _ => p.2) (o.getD [])) tq) tq

/-- One iteration of the document loop of `build_index`. -/
def buildStep (st : InvertedIndex) (doc : String × List String) : InvertedIndex :=
  { st with
    doc_lengths := alUpdate doc.1 (fun _ => doc.2.length) st.doc_lengths
    index := addPositions doc.1 st.index doc.2.enum
    term_freq := addTermFreqs doc.1 st.term_freq (countTerms doc.2) }

/-- `InvertedIndex.build_index` on `normalized_docs` (cache path disabled):
sets `doc_count = len(normalized_docs)` and runs the document loop. -/
def build_index (docs : List (String × List String)) : InvertedIndex :=
  docs.foldl buildStep
    { index := [], doc_lengths := [], doc_count := docs.length, term_freq := [] }

/-- `InvertedIndex.get_term_frequency`:
`self.term_freq.get(term, {}).get(doc_id, 0)`. -/
def get_term_frequency (st : InvertedIndex) (term doc_id : String) : Nat :=
  (alGet ((alGet st.term_freq term).getD []) doc_id).getD 0

/-- `InvertedIndex.get_document_frequency`: `len(self.index.get(term, {}))`. -/
def get_document_frequency (st : InvertedIndex) (term : String) : Nat :=
  ((alGet st.index term).getD []).length

/-- `InvertedIndex.get_inverse_document_frequency`:
`0` when the document frequency is `0`, else `log(doc_count / df)`. -/
noncomputable def get_inverse_document_frequency (st : InvertedIndex)
    (term : String) : ℝ :=
  if get_document_frequency st term = 0 then 0
  else Real.log ((st.doc_count : ℝ) / (get_document_frequency st term : ℝ))

/-- The data written by `_save_index_to_file`: `index`, `doc_lengths` and
`doc_count`; `term_freq` is deliberately not saved.  JSON encoding and
decoding of this structured data is modelled as the identity. -/
structure SavedIndex where
  index : List (String × List (String × List Nat))
  doc_lengths : List (String × Nat)
  doc_count : Nat

/-- `InvertedIndex.save_index` (the persisted payload, metadata aside). -/
def save_index (st : InvertedIndex) : SavedIndex :=
  ⟨st.index, st.doc_lengths, st.doc_count⟩

/-- The `term_freq` rebuild loop of `load_index`:
`for term, docs in self.index.items(): for doc_id, positions in docs.items():
self.term_freq[term][doc_id] = len(positions)`. -/
def rebuildTermFreq (ix : List (String × List (String × List Nat))) :
    List (String × List (String × Nat)) :=
  ix.foldl (fun tq p =>
    p.2.foldl (fun tq q =>
      alUpdate p.1 (fun o => alUpdate q.1 (fun _ => q.2.length) (o.getD [])) tq) tq) []

/-- `InvertedIndex.load_index` on a saved payload without a `term_freq`
field: restores `index`, `doc_lengths`, `doc_count` and rebuilds
`term_freq` from the position lists. -/
def load_index (s : SavedIndex) : InvertedIndex :=
  { index := s.index, doc_lengths := s.doc_lengths, doc_count := s.doc_count,
    term_freq := rebuildTermFreq s.index }

/-- The positions (0-based) at which term `t` occurs, read off an
`enumerate`-style list. -/
def posList (t : String) (pts : List (Nat × String)) : List Nat :=
  (pts.filter (fun p => p.2 == t)).map Prod.fst

theorem posList_nil (t : String) : posList t [] = [] := rfl

theorem posList_cons (t : String) (n : Nat) (a : String) (l : List (Nat × String)) :
    posList t ((n, a) :: l) =
      if a = t then n :: posList t l else posList t l := by
  by_cases h : a = t <;> simp [posList, List.filter_cons, h]

theorem posList_enumFrom_eq_nil {t : String} {ts : List String}
    (h : t ∉ ts) (n : Nat) : posList t (List.enumFrom n ts) = [] := by
  induction ts generalizing n with
  | nil => rfl
  | cons a rest ih =>
    rw [List.enumFrom_cons, posList_cons]
    have ha : ¬ a = t := fun hc => h (hc ▸ List.mem_cons_self a rest)
    rw [if_neg ha]
    exact ih (fun hc => h (List.mem_cons_of_mem a hc)) (n + 1)

theorem length_posList_enumFrom (t : String) (ts : List String) (n : Nat) :
    (posList t (List.enumFrom n ts)).length = ts.count t := by
  induction ts generalizing n with
  | nil => rfl
  | cons a rest ih =>
    rw [List.enumFrom_cons, posList_cons, List.count_cons]
    by_cases h : a = t
    · rw [if_pos h]
      simp [ih (n + 1), h]
    · rw [if_neg h]
      simp [ih (n + 1), h]

theorem alGet_addPositions (doc_id : String)
    (ix : List (String × List (String × List Nat)))
    (ts : List String) (n : Nat) (t : String) :
    alGet (addPositions doc_id ix (List.enumFrom n ts)) t =
      if t ∈ ts then
        some (alUpdate doc_id
          (fun po => po.getD [] ++ posList t (List.enumFrom n ts))
          ((alGet ix t).getD []))
      else alGet ix t := by
  induction ts generalizing n ix with
  | nil => simp [addPositions, posList]
  | cons a rest ih =>
    rw [List.enumFrom_cons]
    have hstep : addPositions doc_id ix ((n, a) :: List.enumFrom (n + 1) rest) =
        addPositions doc_id
          (alUpdate a (fun o =>
            alUpdate doc_id (fun po => po.getD [] ++ [n]) (o.getD [])) ix)
          (List.enumFrom (n + 1) rest) := rfl
    rw [hstep, ih]
    by_cases hta : t = a
    · subst hta
      have hget : alGet (alUpdate t (fun o =>
          alUpdate doc_id (fun po => po.getD [] ++ [n]) (o.getD [])) ix) t =
          some (alUpdate doc_id (fun po => po.getD [] ++ [n]) ((alGet ix t).getD [])) := by
        rw [alGet_alUpdate]; simp
      have hpl : posList t ((n, t) :: List.enumFrom (n + 1) rest) =
          n :: posList t (List.enumFrom (n + 1) rest) := by
        rw [posList_cons, if_pos rfl]
      rw [hpl, if_pos (List.mem_cons_self t rest)]
      by_cases htr : t ∈ rest
      · rw [if_pos htr, hget]
        simp only [Option.getD_some]
        rw [alUpdate_alUpdate]
        apply congrArg
        apply congrArg (fun f => alUpdate doc_id f ((alGet ix t).getD []))
        funext o
        simp
      · rw [if_neg htr, hget, posList_enumFrom_eq_nil htr]
    · have hne : ¬ a = t := fun h => hta h.symm
      have hgetne : alGet (alUpdate a (fun o =>
          alUpdate doc_id (fun po => po.getD [] ++ [n]) (o.getD [])) ix) t =
          alGet ix t := by
        rw [alGet_alUpdate, if_neg hne]
      have hpl : posList t ((n, a) :: List.enumFrom (n + 1) rest) =
          posList t (List.enumFrom (n + 1) rest) := by
        rw [posList_cons, if_neg hne]
      have hmem : (t ∈ a :: rest) ↔ (t ∈ rest) := by
        simp [List.mem_cons, hta]
      rw [hgetne, hpl]
      by_cases htr : t ∈ rest
      · rw [if_pos htr, if_pos (List.mem_cons_of_mem a htr)]
      · rw [if_neg htr, if_neg (fun h => htr (hmem.mp h))]

theorem alGet_append {κ α : Type} [DecidableEq κ]
    (l1 l2 : List (κ × α)) (k : κ) :
    alGet (l1 ++ l2) k =
      match alGet l1 k with
      | some v => some v
      | none => alGet l2 k := by
  induction l1 with
  | nil => simp [alGet]
  | cons p rest ih =>
    obtain ⟨k1, v1⟩ := p
    by_cases h : k1 = k <;> simp [alGet, h, ih]

theorem alKeys_nodup_foldl {κ α β : Type} [DecidableEq κ] (key : β → κ)
    (f : β → Option α → α) (l : List β) (m0 : List (κ × α))
    (h : (alKeys m0).Nodup) :
    (alKeys (l.foldl (fun m b => alUpdate (key b) (f b) m) m0)).Nodup := by
  induction l generalizing m0 with
  | nil => exact h
  | cons b rest ih => exact ih _ (alKeys_nodup_alUpdate (key b) (f b) h)

theorem alGet_countFold (ts : List String) (m0 : List (String × Nat)) (t : String) :
    alGet (ts.foldl (fun m t => alUpdate t (fun o => o.getD 0 + 1) m) m0) t =
      if t ∈ ts then some ((alGet m0 t).getD 0 + ts.count t) else alGet m0 t := by
  induction ts generalizing m0 with
  | nil => simp
  | cons a rest ih =>
    have hstep : (a :: rest).foldl
        (fun m t => alUpdate t (fun o => o.getD 0 + 1) m) m0 =
        rest.foldl (fun m t => alUpdate t (fun o => o.getD 0 + 1) m)
          (alUpdate a (fun o => o.getD 0 + 1) m0) := rfl
    rw [hstep, ih]
    have hup := alGet_alUpdate a (fun o => o.getD 0 + 1) m0
    by_cases hta : t = a
    · subst hta
      rw [if_pos (List.mem_cons_self t rest)]
      have h1 : alGet (alUpdate t (fun o => o.getD 0 + 1) m0) t =
          some ((alGet m0 t).getD 0 + 1) := by rw [hup t, if_pos rfl]
      by_cases htr : t ∈ rest
      · rw [if_pos htr, h1]
        simp [List.count_cons]
        omega
      · rw [if_neg htr, h1]
        have hz : rest.count t = 0 := by
          rw [List.count_eq_zero]
          exact htr
        simp [List.count_cons, hz]
    · have h1 : alGet (alUpdate a (fun o => o.getD 0 + 1) m0) t = alGet m0 t := by
        rw [hup t, if_neg (fun h => hta h.symm)]
      have hcnt : (a :: rest).count t = rest.count t := by
        simp [List.count_cons, hta]
      have hmem : (t ∈ a :: rest) ↔ (t ∈ rest) := by
        simp [List.mem_cons, hta]
      by_cases htr : t ∈ rest
      · rw [if_pos htr, if_pos (hmem.mpr htr), h1, hcnt]
      · rw [if_neg htr, if_neg (fun h => htr (hmem.mp h)), h1]

theorem alGet_countTerms (ts : List String) (t : String) :
    alGet (countTerms ts) t = if t ∈ ts then some (ts.count t) else none := by
  rw [countTerms, alGet_countFold]
  by_cases h : t ∈ ts <;> simp [h, alGet]

theorem alKeys_countTerms_nodup (ts : List String) :
    (alKeys (countTerms ts)).Nodup :=
  alKeys_nodup_foldl (fun t => t) (fun _ o => o.getD 0 + 1) ts [] List.nodup_nil

theorem alGet_addTermFreqs (d : String)
    (tq0 : List (String × List (String × Nat)))
    (tfd : List (String × Nat)) (t : String)
    (hnd : (alKeys tfd).Nodup) :
    alGet (addTermFreqs d tq0 tfd) t =
      match alGet tfd t with
      | some c => some (alUpdate d (fun _ => c) ((alGet tq0 t).getD []))
      | none => alGet tq0 t := by
  induction tfd generalizing tq0 with
  | nil => simp [addTermFreqs, alGet]
  | cons p rest ih =>
    obtain ⟨a, c⟩ := p
    rw [alKeys, List.map_cons, List.nodup_cons] at hnd
    have hstep : addTermFreqs d tq0 ((a, c) :: rest) =
        addTermFreqs d
          (alUpdate a (fun o => alUpdate d (fun _ => c) (o.getD [])) tq0)
          rest := rfl
    rw [hstep, ih _ hnd.2]
    have hup := alGet_alUpdate a
      (fun o => alUpdate d (fun _ => c) (o.getD [])) tq0
    by_cases hta : t = a
    · subst hta
      have hna : alGet rest t = none :=
        (alGet_eq_none_iff rest t).mpr hnd.1
      rw [hna]
      have h1 : alGet (alUpdate t
          (fun o => alUpdate d (fun _ => c) (o.getD [])) tq0) t =
          some (alUpdate d (fun _ => c) ((alGet tq0 t).getD [])) := by
        rw [hup t, if_pos rfl]
      rw [h1]
      simp [alGet]
    · have h1 : alGet (alUpdate a
          (fun o => alUpdate d (fun _ => c) (o.getD [])) tq0) t =
          alGet tq0 t := by
        rw [hup t, if_neg (fun h => hta h.symm)]
      rw [h1]
      have h2 : alGet ((a, c) :: rest) t = alGet rest t := by
        rw [alGet, if_neg (fun h => hta h.symm)]
      rw [h2]

/-- `True` iff term `t` occurs in some document of `docs`. -/
def occursIn (docs : List (String × List String)) (t : String) : Bool :=
  docs.any (fun p => decide (t ∈ p.2))

/-- The postings of term `t` after building: one entry per document
containing `t`, in document order, carrying the positions of `t`. -/
def idxPostings (docs : List (String × List String)) (t : String) :
    List (String × List Nat) :=
  (docs.filter (fun p => decide (t ∈ p.2))).map (fun p => (p.1, posList t p.2.enum))

/-- The term-frequency row of term `t` after building: one entry per
document containing `t`, carrying the occurrence count. -/
def tfPostings (docs : List (String × List String)) (t : String) :
    List (String × Nat) :=
  (docs.filter (fun p => decide (t ∈ p.2))).map (fun p => (p.1, p.2.count t))

theorem alGet_buildStep_index (st : InvertedIndex) (d : String)
    (ts : List String) (t : String) :
    alGet ((buildStep st (d, ts)).index) t =
      if t ∈ ts then
        some (alUpdate d (fun po => po.getD [] ++ posList t ts.enum)
          ((alGet st.index t).getD []))
      else alGet st.index t :=
  alGet_addPositions d st.index ts 0 t

theorem alGet_buildStep_term_freq (st : InvertedIndex) (d : String)
    (ts : List String) (t : String) :
    alGet ((buildStep st (d, ts)).term_freq) t =
      if t ∈ ts then
        some (alUpdate d (fun _ => ts.count t) ((alGet st.term_freq t).getD []))
      else alGet st.term_freq t := by
  show alGet (addTermFreqs d st.term_freq (countTerms ts)) t = _
  rw [alGet_addTermFreqs _ _ _ _ (alKeys_countTerms_nodup ts), alGet_countTerms]
  by_cases h : t ∈ ts <;> simp [h]

theorem alGet_foldl_buildStep_proj {α : Type}
    (proj : InvertedIndex → List (String × List (String × α)))
    (t : String) (updf : List String → Option α → α)
    (hstep : ∀ st d ts, alGet (proj (buildStep st (d, ts))) t =
      if t ∈ ts then
        some (alUpdate d (updf ts) ((alGet (proj st) t).getD []))
      else alGet (proj st) t)
    (docs : List (String × List String)) (st0 : InvertedIndex)
    (hnd : (docs.map Prod.fst).Nodup)
    (hfresh : ∀ p ∈ docs, alGet ((alGet (proj st0) t).getD []) p.1 = none) :
    alGet (proj (docs.foldl buildStep st0)) t =
      if (occursIn docs t || (alGet (proj st0) t).isSome) then
        some (((alGet (proj st0) t).getD []) ++
          (docs.filter (fun p => decide (t ∈ p.2))).map
            (fun p => (p.1, updf p.2 none)))
      else none := by
  induction docs generalizing st0 with
  | nil =>
    cases h : alGet (proj st0) t <;> simp [occursIn, h]
  | cons p rest ih =>
    obtain ⟨d, ts⟩ := p
    rw [List.map_cons, List.nodup_cons] at hnd
    have hd_rest : d ∉ rest.map Prod.fst := hnd.1
    have hfr0 : alGet ((alGet (proj st0) t).getD []) d = none :=
      hfresh (d, ts) (List.mem_cons_self _ _)
    have hfold : (((d, ts) :: rest).foldl buildStep st0) =
        rest.foldl buildStep (buildStep st0 (d, ts)) := rfl
    rw [hfold]
    by_cases hts : t ∈ ts
    · have hidx1 : alGet (proj (buildStep st0 (d, ts))) t =
          some (((alGet (proj st0) t).getD []) ++ [(d, updf ts none)]) := by
        rw [hstep, if_pos hts, alUpdate_of_alGet_eq_none _ hfr0]
      have hfresh1 : ∀ p ∈ rest,
          alGet ((alGet (proj (buildStep st0 (d, ts))) t).getD []) p.1 = none := by
        intro p hp
        rw [hidx1]
        simp only [Option.getD_some]
        rw [alGet_append]
        rw [hfresh p (List.mem_cons_of_mem _ hp)]
        have hpd : ¬ d = p.1 := by
          intro hc
          exact hd_rest (hc ▸ List.mem_map_of_mem Prod.fst hp)
        simp [alGet, hpd]
      rw [ih _ hnd.2 hfresh1, hidx1]
      have hocc : occursIn ((d, ts) :: rest) t = true := by
        simp [occursIn, List.any_cons, hts]
      have hfil : (((d, ts) :: rest).filter (fun p => decide (t ∈ p.2))) =
          (d, ts) :: rest.filter (fun p => decide (t ∈ p.2)) := by
        rw [List.filter_cons]
        simp [hts]
      rw [hocc, hfil]
      simp [List.append_assoc]
    · have hidx1 : alGet (proj (buildStep st0 (d, ts))) t =
          alGet (proj st0) t := by
        rw [hstep, if_neg hts]
      have hfresh1 : ∀ p ∈ rest,
          alGet ((alGet (proj (buildStep st0 (d, ts))) t).getD []) p.1 = none := by
        intro p hp
        rw [hidx1]
        exact hfresh p (List.mem_cons_of_mem _ hp)
      rw [ih _ hnd.2 hfresh1, hidx1]
      have hocc : occursIn ((d, ts) :: rest) t = occursIn rest t := by
        simp [occursIn, hts]
      have hfil : (((d, ts) :: rest).filter (fun p => decide (t ∈ p.2))) =
          rest.filter (fun p => decide (t ∈ p.2)) := by
        rw [List.filter_cons]
        simp [hts]
      rw [hocc, hfil]

theorem alGet_build_index_index (docs : List (String × List String))
    (hnd : (docs.map Prod.fst).Nodup) (t : String) :
    alGet ((build_index docs).index) t =
      if occursIn docs t then some (idxPostings docs t) else none := by
  have h := alGet_foldl_buildStep_proj (fun st => st.index) t
    (fun ts po => po.getD [] ++ posList t ts.enum)
    (fun st d ts => alGet_buildStep_index st d ts t)
    docs ⟨[], [], docs.length, []⟩ hnd (fun p _ => rfl)
  refine h.trans ?_
  by_cases ho : occursIn docs t <;>
    simp [ho, alGet, idxPostings]

theorem alGet_build_index_term_freq (docs : List (String × List String))
    (hnd : (docs.map Prod.fst).Nodup) (t : String) :
    alGet ((build_index docs).term_freq) t =
      if occursIn docs t then some (tfPostings docs t) else none := by
  have h := alGet_foldl_buildStep_proj (fun st => st.term_freq) t
    (fun ts _ => ts.count t)
    (fun st d ts => alGet_buildStep_term_freq st d ts t)
    docs ⟨[], [], docs.length, []⟩ hnd (fun p _ => rfl)
  refine h.trans ?_
  by_cases ho : occursIn docs t <;>
    simp [ho, alGet, tfPostings]

theorem alGet_foldl_buildStep_doc_lengths (docs : List (String × List String))
    (st0 : InvertedIndex) (d0 : String)
    (hnd : (docs.map Prod.fst).Nodup)
    (hfresh : ∀ p ∈ docs, alGet st0.doc_lengths p.1 = none) :
    alGet ((docs.foldl buildStep st0).doc_lengths) d0 =
      match alGet docs d0 with
      | some ts => some ts.length
      | none => alGet st0.doc_lengths d0 := by
  induction docs generalizing st0 with
  | nil => simp [alGet]
  | cons p rest ih =>
    obtain ⟨d, ts⟩ := p
    rw [List.map_cons, List.nodup_cons] at hnd
    have hfold : (((d, ts) :: rest).foldl buildStep st0) =
        rest.foldl buildStep (buildStep st0 (d, ts)) := rfl
    have hdl : (buildStep st0 (d, ts)).doc_lengths =
        alUpdate d (fun _ => ts.length) st0.doc_lengths := rfl
    have hfresh1 : ∀ p ∈ rest,
        alGet ((buildStep st0 (d, ts)).doc_lengths) p.1 = none := by
      intro p hp
      rw [hdl, alGet_alUpdate]
      have hpd : ¬ d = p.1 := by
        intro hc
        have hk : p.1 ∈ List.map Prod.fst rest := List.mem_map_of_mem Prod.fst hp
        rw [← hc] at hk
        exact hnd.1 hk
      rw [if_neg hpd]
      exact hfresh p (List.mem_cons_of_mem _ hp)
    rw [hfold, ih _ hnd.2 hfresh1]
    by_cases hdd : d = d0
    · subst hdd
      have hrest : alGet rest d = none := by
        rw [alGet_eq_none_iff]
        exact hnd.1
      rw [hrest]
      have hcons : alGet ((d, ts) :: rest) d = some ts := by
        simp [alGet]
      rw [hcons, hdl, alGet_alUpdate, if_pos rfl]
    · have hcons : alGet ((d, ts) :: rest) d0 = alGet rest d0 := by
        rw [alGet, if_neg hdd]
      rw [hcons]
      cases hr : alGet rest d0 with
      | some ts1 => rfl
      | none =>
        rw [hdl, alGet_alUpdate, if_neg hdd]

theorem alGet_build_index_doc_lengths (docs : List (String × List String))
    (hnd : (docs.map Prod.fst).Nodup) (d : String) :
    alGet ((build_index docs).doc_lengths) d =
      (alGet docs d).map (fun ts => ts.length) := by
  have h := alGet_foldl_buildStep_doc_lengths docs
    ⟨[], [], docs.length, []⟩ d hnd (fun p _ => rfl)
  refine h.trans ?_
  cases hd : alGet docs d <;> simp [alGet]

theorem doc_count_foldl_buildStep (docs : List (String × List String))
    (st0 : InvertedIndex) :
    (docs.foldl buildStep st0).doc_count = st0.doc_count := by
  induction docs generalizing st0 with
  | nil => rfl
  | cons p rest ih => exact ih (buildStep st0 p)

theorem build_index_doc_count (docs : List (String × List String)) :
    (build_index docs).doc_count = docs.length :=
  doc_count_foldl_buildStep docs _

theorem alKeys_build_index_index_nodup (docs : List (String × List String)) :
    (alKeys ((build_index docs).index)).Nodup := by
  have hgen : ∀ (l : List (String × List String)) (st0 : InvertedIndex),
      (alKeys st0.index).Nodup → (alKeys ((l.foldl buildStep st0).index)).Nodup := by
    intro l
    induction l with
    | nil => intro st0 h; exact h
    | cons p rest ih =>
      intro st0 h
      refine ih (buildStep st0 p) ?_
      show (alKeys (addPositions p.1 st0.index p.2.enum)).Nodup
      exact alKeys_nodup_foldl (fun pt => pt.2)
        (fun pt o => alUpdate p.1 (fun po => po.getD [] ++ [pt.1]) (o.getD []))
        p.2.enum st0.index h
  exact hgen docs _ List.nodup_nil

theorem alGet_filter_map {κ α β : Type} [DecidableEq κ]
    (l : List (κ × α)) (p : κ × α → Bool) (g : κ × α → β) (k : κ)
    (hnd : (alKeys l).Nodup) :
    alGet ((l.filter p).map (fun q => (q.1, g q))) k =
      match alGet l k with
      | some v => if p (k, v) then some (g (k, v)) else none
      | none => none := by
  induction l with
  | nil => simp [alGet]
  | cons q rest ih =>
    obtain ⟨k1, v1⟩ := q
    rw [alKeys, List.map_cons, List.nodup_cons] at hnd
    rw [List.filter_cons]
    by_cases hp : p (k1, v1)
    · rw [if_pos hp, List.map_cons]
      by_cases hk : k1 = k
      · subst hk
        simp [alGet, hp]
      · have h1 : alGet ((k1, g (k1, v1)) ::
            (rest.filter p).map (fun q => (q.1, g q))) k =
            alGet ((rest.filter p).map (fun q => (q.1, g q))) k := by
          rw [alGet, if_neg hk]
        have h2 : alGet ((k1, v1) :: rest) k = alGet rest k := by
          rw [alGet, if_neg hk]
        rw [h1, h2, ih hnd.2]
    · rw [if_neg hp]
      by_cases hk : k1 = k
      · subst hk
        have hrest : alGet rest k1 = none := by
          rw [alGet_eq_none_iff]
          exact hnd.1
        rw [ih hnd.2, hrest]
        have h2 : alGet ((k1, v1) :: rest) k1 = some v1 := by
          simp [alGet]
        rw [h2]
        simp [hp]
      · have h2 : alGet ((k1, v1) :: rest) k = alGet rest k := by
          rw [alGet, if_neg hk]
        rw [ih hnd.2, h2]

theorem get_document_frequency_build (docs : List (String × List String))
    (hnd : (docs.map Prod.fst).Nodup) (t : String) :
    get_document_frequency (build_index docs) t =
      (docs.filter (fun p => decide (t ∈ p.2))).length := by
  rw [get_document_frequency, alGet_build_index_index docs hnd t]
  by_cases h : occursIn docs t
  · simp [h, idxPostings]
  · have hfil : docs.filter (fun p => decide (t ∈ p.2)) = [] := by
      rw [List.filter_eq_nil_iff]
      intro p hp
      simp [occursIn, List.any_eq_true] at h
      simpa using h p.1 p.2 hp
    simp [h, hfil]

theorem get_term_frequency_build (docs : List (String × List String))
    (hnd : (docs.map Prod.fst).Nodup) (t d : String) :
    get_term_frequency (build_index docs) t d =
      ((alGet docs d).getD []).count t := by
  rw [get_term_frequency, alGet_build_index_term_freq docs hnd t]
  by_cases ho : occursIn docs t
  · rw [if_pos ho]
    simp only [Option.getD_some]
    rw [tfPostings, alGet_filter_map docs _ _ d hnd]
    cases hd : alGet docs d with
    | none => simp
    | some ts =>
      by_cases hts : t ∈ ts
      · simp [hts]
      · simp [hts]
        exact (List.count_eq_zero.mpr hts).symm
  · rw [if_neg ho]
    simp only [Option.getD_none]
    cases hd : alGet docs d with
    | none => simp [alGet]
    | some ts =>
      have hts : t ∉ ts := by
        intro hc
        have hmem : (d, ts) ∈ docs := mem_of_alGet_eq_some hd
        have : occursIn docs t = true := by
          simp [occursIn, List.any_eq_true]
          exact ⟨d, ts, hmem, hc⟩
        exact ho this
      simp [alGet]
      exact (List.count_eq_zero.mpr hts).symm

theorem filter_map_fst {α : Type} (l : List (String × α)) (p : String → Bool) :
    (l.map Prod.fst).filter p = (l.filter (fun a => p a.1)).map Prod.fst := by
  induction l with
  | nil => rfl
  | cons a rest ih =>
    rw [List.map_cons, List.filter_cons, List.filter_cons]
    cases hp : p a.1 <;> simp [hp, ih]

theorem sum_map_count_eq_length (keys ts : List String)
    (hnd : keys.Nodup) (hcov : ∀ x ∈ ts, x ∈ keys) :
    (keys.map (fun t => ts.count t)).sum = ts.length := by
  rw [← List.sum_toFinset _ hnd]
  calc keys.toFinset.sum (fun t => ts.count t)
      = keys.toFinset.sum (fun t => Multiset.count t (↑ts : Multiset String)) := by
        refine Finset.sum_congr rfl ?_
        intro x _
        simp
    _ = Multiset.card (↑ts : Multiset String) := by
        refine Multiset.sum_count_eq_card ?_
        intro a ha
        simp only [Multiset.mem_coe] at ha
        simp [List.mem_toFinset]
        exact hcov a ha
    _ = ts.length := by simp

theorem tf_pos_iff_mem (docs : List (String × List String))
    (hnd : (docs.map Prod.fst).Nodup) (t : String) (p : String × List String)
    (hp : p ∈ docs) :
    (decide (0 < get_term_frequency (build_index docs) t p.1) : Bool) =
      decide (t ∈ p.2) := by
  have hget : alGet docs p.1 = some p.2 := alGet_eq_some_of_mem hnd hp
  rw [get_term_frequency_build docs hnd t p.1, hget]
  simp only [Option.getD_some]
  by_cases hm : t ∈ p.2
  · simp [hm, List.count_pos_iff.mpr hm]
  · simp [hm, List.count_eq_zero.mpr hm]

/-- C1: after `build_index`, for every term `t` the value of
`get_document_frequency(t)` equals the number of distinct documents `d`
with `get_term_frequency(t, d) > 0`, and for every `(t, d)` pair present
in the index, `get_term_frequency(t, d)` equals the length of the stored
position list. -/
theorem claim_C1 (docs : List (String × List String))
    (hnd : (docs.map Prod.fst).Nodup) (t : String) :
    (get_document_frequency (build_index docs) t =
      ((docs.map Prod.fst).filter
        (fun d => decide (0 < get_term_frequency (build_index docs) t d))).length)
    ∧ (∀ d m ps, alGet ((build_index docs).index) t = some m →
        alGet m d = some ps →
        get_term_frequency (build_index docs) t d = ps.length) := by
  constructor
  · rw [get_document_frequency_build docs hnd t]
    rw [filter_map_fst docs
      (fun d => decide (0 < get_term_frequency (build_index docs) t d))]
    rw [List.length_map, List.filter_congr (tf_pos_iff_mem docs hnd t)]
  · intro d m ps him hm
    rw [alGet_build_index_index docs hnd t] at him
    by_cases ho : occursIn docs t
    · rw [if_pos ho] at him
      have hmeq : m = idxPostings docs t := (Option.some.injEq .. ▸ him).symm
      subst hmeq
      rw [idxPostings, alGet_filter_map docs _ _ d hnd] at hm
      cases hd : alGet docs d with
      | none => rw [hd] at hm; simp at hm
      | some ts =>
        rw [hd] at hm
        by_cases hts : t ∈ ts
        · simp [hts] at hm
          rw [get_term_frequency_build docs hnd t d, hd]
          simp only [Option.getD_some]
          rw [← hm]
          exact (length_posList_enumFrom t ts 0).symm
        · simp [hts] at hm
    · rw [if_neg ho] at him
      simp at him

/-- Concrete instantiation of `claim_C1`. -/
theorem claim_C1_witness :
    ((([("d1", ["cat", "dog", "cat"]), ("d2", ["dog"])] :
        List (String × List String)).map Prod.fst).Nodup)
    ∧ (get_document_frequency
        (build_index [("d1", ["cat", "dog", "cat"]), ("d2", ["dog"])]) "cat" =
      ((([("d1", ["cat", "dog", "cat"]), ("d2", ["dog"])] :
        List (String × List String)).map Prod.fst).filter
        (fun d => decide (0 < get_term_frequency
          (build_index [("d1", ["cat", "dog", "cat"]), ("d2", ["dog"])]) "cat" d))).length)
    ∧ (get_term_frequency
        (build_index [("d1", ["cat", "dog", "cat"]), ("d2", ["dog"])]) "cat" "d1" =
      ([0, 2] : List Nat).length) :=
  ⟨by decide,
   (claim_C1 [("d1", ["cat", "dog", "cat"]), ("d2", ["dog"])] (by decide) "cat").1,
   (claim_C1 [("d1", ["cat", "dog", "cat"]), ("d2", ["dog"])] (by decide) "cat").2
     "d1" [("d1", [0, 2])] [0, 2] (by decide) (by decide)⟩

/-- C2: after `build_index`, for every ingested document `d` with token
list `ts`, the sum over all index entries of the length of `d`'s position
list equals `ts.length`, which is also the stored document length. -/
theorem claim_C2 (docs : List (String × List String))
    (hnd : (docs.map Prod.fst).Nodup) (d : String) (ts : List String)
    (hd : alGet docs d = some ts) :
    ((((build_index docs).index).map
        (fun e => ((alGet e.2 d).getD []).length)).sum = ts.length)
    ∧ alGet ((build_index docs).doc_lengths) d = some ts.length := by
  have hidxnd := alKeys_build_index_index_nodup docs
  have hmemd : (d, ts) ∈ docs := mem_of_alGet_eq_some hd
  constructor
  · have hpt : ∀ e ∈ (build_index docs).index,
        ((alGet e.2 d).getD []).length = ts.count e.1 := by
      intro e he
      have hsome : alGet ((build_index docs).index) e.1 = some e.2 :=
        alGet_eq_some_of_mem hidxnd he
      rw [alGet_build_index_index docs hnd e.1] at hsome
      by_cases ho : occursIn docs e.1
      · rw [if_pos ho] at hsome
        have he2 : e.2 = idxPostings docs e.1 :=
          (Option.some.injEq .. ▸ hsome).symm
        rw [he2, idxPostings, alGet_filter_map docs _ _ d hnd, hd]
        by_cases hts : e.1 ∈ ts
        · simp [hts]
          exact length_posList_enumFrom e.1 ts 0
        · simp [hts]
          exact (List.count_eq_zero.mpr hts).symm
      · rw [if_neg ho] at hsome
        simp at hsome
    rw [List.map_congr_left hpt]
    have hmm : ((build_index docs).index.map (fun e => ts.count e.1)) =
        (alKeys ((build_index docs).index)).map (fun t => ts.count t) := by
      rw [alKeys, List.map_map]
      rfl
    rw [hmm]
    refine sum_map_count_eq_length _ ts hidxnd ?_
    intro x hx
    have hocc : occursIn docs x = true := by
      simp [occursIn, List.any_eq_true]
      exact ⟨d, ts, hmemd, hx⟩
    have hs : (alGet ((build_index docs).index) x).isSome := by
      rw [alGet_build_index_index docs hnd x, if_pos hocc]
      rfl
    exact (alGet_isSome_iff _ _).mp hs
  · rw [alGet_build_index_doc_lengths docs hnd d, hd]
    rfl

/-- Concrete instantiation of `claim_C2`. -/
theorem claim_C2_witness :
    ((([("d1", ["cat", "dog", "cat"]), ("d2", ["dog"])] :
        List (String × List String)).map Prod.fst).Nodup)
    ∧ (alGet ([("d1", ["cat", "dog", "cat"]), ("d2", ["dog"])] :
        List (String × List String)) "d1" = some ["cat", "dog", "cat"])
    ∧ ((((build_index [("d1", ["cat", "dog", "cat"]), ("d2", ["dog"])]).index).map
        (fun e => ((alGet e.2 "d1").getD []).length)).sum =
       (["cat", "dog", "cat"] : List String).length)
    ∧ alGet ((build_index [("d1", ["cat", "dog", "cat"]), ("d2", ["dog"])]).doc_lengths)
        "d1" = some (["cat", "dog", "cat"] : List String).length :=
  ⟨by decide, by decide,
   (claim_C2 [("d1", ["cat", "dog", "cat"]), ("d2", ["dog"])] (by decide)
     "d1" ["cat", "dog", "cat"] (by decide)).1,
   (claim_C2 [("d1", ["cat", "dog", "cat"]), ("d2", ["dog"])] (by decide)
     "d1" ["cat", "dog", "cat"] (by decide)).2⟩

/-- C7: on a built index, `get_inverse_document_frequency(t)` equals
`ln(doc_count / documentFrequency(t))` when the document frequency is
positive, and the sentinel `0` (not an error) when it is `0`. -/
theorem claim_C7 (docs : List (String × List String)) (t : String) :
    (0 < get_document_frequency (build_index docs) t →
      get_inverse_document_frequency (build_index docs) t =
        Real.log ((docs.length : ℝ) /
          (get_document_frequency (build_index docs) t : ℝ)))
    ∧ (get_document_frequency (build_index docs) t = 0 →
      get_inverse_document_frequency (build_index docs) t = 0) := by
  constructor
  · intro h
    rw [get_inverse_document_frequency, if_neg (Nat.pos_iff_ne_zero.mp h),
      build_index_doc_count]
  · intro h
    rw [get_inverse_document_frequency, if_pos h]

/-- Concrete instantiation of `claim_C7`. -/
theorem claim_C7_witness :
    (0 < get_document_frequency
      (build_index [("d1", ["cat", "dog", "cat"]), ("d2", ["dog"])]) "cat")
    ∧ get_inverse_document_frequency
        (build_index [("d1", ["cat", "dog", "cat"]), ("d2", ["dog"])]) "cat" =
      Real.log ((([("d1", ["cat", "dog", "cat"]), ("d2", ["dog"])] :
          List (String × List String)).length : ℝ) /
        ((get_document_frequency
          (build_index [("d1", ["cat", "dog", "cat"]), ("d2", ["dog"])]) "cat") : ℝ)) :=
  ⟨by decide,
   (claim_C7 [("d1", ["cat", "dog", "cat"]), ("d2", ["dog"])] "cat").1 (by decide)⟩

/-- The inner loop of the `term_freq` rebuild in `load_index`, for a fixed
term entry. -/
def rebuildInner (t : String) (m : List (String × List Nat))
    (tq0 : List (String × List (String × Nat))) :
    List (String × List (String × Nat)) :=
  m.foldl (fun tq q =>
    alUpdate t (fun o => alUpdate q.1 (fun _ => q.2.length) (o.getD [])) tq) tq0

theorem rebuildTermFreq_eq_foldl (ix : List (String × List (String × List Nat))) :
    rebuildTermFreq ix = ix.foldl (fun tq p => rebuildInner p.1 p.2 tq) [] := rfl

theorem alGet_rebuildInner_ne (t t' : String) (hne : t' ≠ t)
    (m : List (String × List Nat)) (tq0 : List (String × List (String × Nat))) :
    alGet (rebuildInner t m tq0) t' = alGet tq0 t' := by
  induction m generalizing tq0 with
  | nil => rfl
  | cons q rest ih =>
    have hstep : rebuildInner t (q :: rest) tq0 =
        rebuildInner t rest
          (alUpdate t (fun o =>
            alUpdate q.1 (fun _ => q.2.length) (o.getD [])) tq0) := rfl
    rw [hstep, ih, alGet_alUpdate, if_neg (fun h => hne h.symm)]

theorem alGet_rebuildInner_eq (t : String) (m : List (String × List Nat))
    (hm : m ≠ []) (tq0 : List (String × List (String × Nat))) :
    alGet (rebuildInner t m tq0) t =
      some (m.foldl (fun acc q => alUpdate q.1 (fun _ => q.2.length) acc)
        ((alGet tq0 t).getD [])) := by
  induction m generalizing tq0 with
  | nil => exact absurd rfl hm
  | cons q rest ih =>
    have hstep : rebuildInner t (q :: rest) tq0 =
        rebuildInner t rest
          (alUpdate t (fun o =>
            alUpdate q.1 (fun _ => q.2.length) (o.getD [])) tq0) := rfl
    have hget : alGet (alUpdate t (fun o =>
        alUpdate q.1 (fun _ => q.2.length) (o.getD [])) tq0) t =
        some (alUpdate q.1 (fun _ => q.2.length) ((alGet tq0 t).getD [])) := by
      rw [alGet_alUpdate, if_pos rfl]
    rw [hstep]
    cases hr : rest with
    | nil =>
      show alGet (alUpdate t _ tq0) t = _
      rw [hget]
      rfl
    | cons q1 rest1 =>
      rw [← hr, ih (hr ▸ List.cons_ne_nil q1 rest1), hget]
      rfl

theorem foldl_alUpdate_const_append {α β : Type} (g : String × α → β)
    (m : List (String × α)) (acc0 : List (String × β))
    (hnd : (alKeys m).Nodup) (hfr : ∀ q ∈ m, alGet acc0 q.1 = none) :
    m.foldl (fun acc q => alUpdate q.1 (fun _ => g q) acc) acc0 =
      acc0 ++ m.map (fun q => (q.1, g q)) := by
  induction m generalizing acc0 with
  | nil => simp
  | cons q rest ih =>
    rw [alKeys, List.map_cons, List.nodup_cons] at hnd
    have hq : alGet acc0 q.1 = none := hfr q (List.mem_cons_self _ _)
    have hstep : (q :: rest).foldl (fun acc q => alUpdate q.1 (fun _ => g q) acc) acc0 =
        rest.foldl (fun acc q => alUpdate q.1 (fun _ => g q) acc)
          (alUpdate q.1 (fun _ => g q) acc0) := rfl
    rw [hstep, alUpdate_of_alGet_eq_none _ hq]
    have hfr1 : ∀ r ∈ rest, alGet (acc0 ++ [(q.1, g q)]) r.1 = none := by
      intro r hr
      rw [alGet_append, hfr r (List.mem_cons_of_mem _ hr)]
      have hne : ¬ q.1 = r.1 := by
        intro hc
        exact hnd.1 (hc ▸ List.mem_map_of_mem Prod.fst hr)
      simp [alGet, hne]
    rw [ih _ hnd.2 hfr1, List.append_assoc]
    rfl

theorem alGet_rebuildTermFreq (ix : List (String × List (String × List Nat)))
    (hnd : (alKeys ix).Nodup) (t : String) :
    alGet (rebuildTermFreq ix) t =
      (alGet ix t).bind (fun m =>
        if m = [] then none
        else some (m.foldl
          (fun acc q => alUpdate q.1 (fun _ => q.2.length) acc) [])) := by
  have hgen : ∀ (l : List (String × List (String × List Nat)))
      (tq0 : List (String × List (String × Nat))),
      (alKeys l).Nodup →
      alGet (l.foldl (fun tq p => rebuildInner p.1 p.2 tq) tq0) t =
        match alGet l t with
        | some m =>
            if m = [] then alGet tq0 t
            else some (m.foldl
              (fun acc q => alUpdate q.1 (fun _ => q.2.length) acc)
              ((alGet tq0 t).getD []))
        | none => alGet tq0 t := by
    intro l
    induction l with
    | nil => intro tq0 _; rfl
    | cons p rest ih =>
      intro tq0 hndl
      obtain ⟨t1, m1⟩ := p
      rw [alKeys, List.map_cons, List.nodup_cons] at hndl
      have hstep : ((t1, m1) :: rest).foldl
          (fun tq p => rebuildInner p.1 p.2 tq) tq0 =
          rest.foldl (fun tq p => rebuildInner p.1 p.2 tq)
            (rebuildInner t1 m1 tq0) := rfl
      rw [hstep, ih _ hndl.2]
      by_cases htt : t = t1
      · subst htt
        have hrest : alGet rest t = none := by
          rw [alGet_eq_none_iff]
          exact hndl.1
        rw [hrest]
        have hcons : alGet ((t, m1) :: rest) t = some m1 := by
          simp [alGet]
        rw [hcons]
        cases hm1 : m1 with
        | nil => simp [rebuildInner]
        | cons q1 r1 =>
          rw [← hm1, alGet_rebuildInner_eq t m1 (hm1 ▸ List.cons_ne_nil q1 r1) tq0]
          simp [hm1 ▸ List.cons_ne_nil q1 r1]
      · have hcons : alGet ((t1, m1) :: rest) t = alGet rest t := by
          rw [alGet, if_neg (fun h => htt h.symm)]
        rw [hcons, alGet_rebuildInner_ne t1 t htt m1 tq0]
  have h := hgen ix [] hnd
  refine h.trans ?_
  cases hg : alGet ix t with
  | none => rfl
  | some m =>
    rw [Option.some_bind]
    cases hm : m with
    | nil => rfl
    | cons q r => rfl

theorem alKeys_idxPostings_nodup (docs : List (String × List String))
    (hnd : (docs.map Prod.fst).Nodup) (t : String) :
    (alKeys (idxPostings docs t)).Nodup := by
  have : alKeys (idxPostings docs t) =
      (docs.filter (fun p => decide (t ∈ p.2))).map Prod.fst := by
    rw [idxPostings, alKeys, List.map_map]
    rfl
  rw [this]
  exact List.Nodup.sublist (List.Sublist.map Prod.fst (List.filter_sublist docs)) hnd

theorem idxPostings_ne_nil (docs : List (String × List String)) (t : String)
    (ho : occursIn docs t = true) : idxPostings docs t ≠ [] := by
  simp [occursIn, List.any_eq_true] at ho
  obtain ⟨d, ts, hmem, ht⟩ := ho
  rw [idxPostings]
  intro hc
  rw [List.map_eq_nil_iff] at hc
  have : (d, ts) ∈ docs.filter (fun p => decide (t ∈ p.2)) := by
    rw [List.mem_filter]
    exact ⟨hmem, by simpa using ht⟩
  rw [hc] at this
  simp at this

theorem get_term_frequency_roundtrip (docs : List (String × List String))
    (hnd : (docs.map Prod.fst).Nodup) (t d : String) :
    get_term_frequency (load_index (save_index (build_index docs))) t d =
      ((alGet docs d).getD []).count t := by
  have hixnd := alKeys_build_index_index_nodup docs
  show (alGet ((alGet (rebuildTermFreq ((build_index docs).index)) t).getD []) d).getD 0 = _
  rw [alGet_rebuildTermFreq _ hixnd t, alGet_build_index_index docs hnd t]
  by_cases ho : occursIn docs t
  · rw [if_pos ho, Option.some_bind]
    have hne := idxPostings_ne_nil docs t ho
    rw [if_neg hne]
    simp only [Option.getD_some]
    have hinner : (idxPostings docs t).foldl
        (fun acc q => alUpdate q.1 (fun _ => q.2.length) acc) [] =
        (docs.filter (fun p => decide (t ∈ p.2))).map
          (fun p => (p.1, (posList t p.2.enum).length)) := by
      have h0 : ∀ q ∈ idxPostings docs t,
          alGet ([] : List (String × Nat)) q.1 = none := fun _ _ => rfl
      rw [foldl_alUpdate_const_append (fun q => q.2.length) _ []
        (alKeys_idxPostings_nodup docs hnd t) h0]
      rw [List.nil_append, idxPostings, List.map_map]
      rfl
    rw [hinner, alGet_filter_map docs _ _ d hnd]
    cases hd : alGet docs d with
    | none => simp
    | some ts =>
      by_cases hts : t ∈ ts
      · simp [hts]
        exact length_posList_enumFrom t ts 0
      · simp [hts]
        exact (List.count_eq_zero.mpr hts).symm
  · rw [if_neg ho]
    simp only [Option.none_bind, Option.getD_none]
    cases hd : alGet docs d with
    | none => simp [alGet]
    | some ts =>
      have hts : t ∉ ts := by
        intro hc
        have hmem : (d, ts) ∈ docs := mem_of_alGet_eq_some hd
        have hocc : occursIn docs t = true := by
          simp [occursIn, List.any_eq_true]
          exact ⟨d, ts, hmem, hc⟩
        exact ho hocc
      simp [alGet]
      exact (List.count_eq_zero.mpr hts).symm

/-- C8: loading a saved built index reproduces identical postings,
document lengths and document count, and identical document and term
frequencies for every term and document (the `term_freq` table is rebuilt
from the position lists). -/
theorem claim_C8 (docs : List (String × List String))
    (hnd : (docs.map Prod.fst).Nodup) :
    ((load_index (save_index (build_index docs))).index = (build_index docs).index)
    ∧ ((load_index (save_index (build_index docs))).doc_lengths =
        (build_index docs).doc_lengths)
    ∧ ((load_index (save_index (build_index docs))).doc_count =
        (build_index docs).doc_count)
    ∧ (∀ t, get_document_frequency (load_index (save_index (build_index docs))) t =
        get_document_frequency (build_index docs) t)
    ∧ (∀ t d, get_term_frequency (load_index (save_index (build_index docs))) t d =
        get_term_frequency (build_index docs) t d) := by
  refine ⟨rfl, rfl, rfl, fun t => rfl, ?_⟩
  intro t d
  rw [get_term_frequency_roundtrip docs hnd t d,
    get_term_frequency_build docs hnd t d]

/-- Concrete instantiation of `claim_C8`. -/
theorem claim_C8_witness :
    ((([("d1", ["cat", "dog", "cat"]), ("d2", ["dog"])] :
        List (String × List String)).map Prod.fst).Nodup)
    ∧ (get_term_frequency
        (load_index (save_index
          (build_index [("d1", ["cat", "dog", "cat"]), ("d2", ["dog"])]))) "cat" "d1" =
        get_term_frequency
          (build_index [("d1", ["cat", "dog", "cat"]), ("d2", ["dog"])]) "cat" "d1") :=
  ⟨by decide,
   (claim_C8 [("d1", ["cat", "dog", "cat"]), ("d2", ["dog"])]
     (by decide)).2.2.2.2 "cat" "d1"⟩

/-! ## Boolean retrieval (`src/boolean_retrieval.py`) -/

/-- Python `str.strip()` on a character list: drop whitespace from both
ends. -/
def trimChars (l : List Char) : List Char :=
  ((l.dropWhile Char.isWhitespace).reverse.dropWhile Char.isWhitespace).reverse

/-- `query.lower().strip()` applied to the raw query string. -/
def lowerTrim (q : String) : List Char := trimChars (q.data.map Char.toLower)

/-- Python `str.split(sep)` for separator `s0 :: srest`, scanning left to
right for non-overlapping occurrences.  The `fuel` argument makes the
recursion structural; it is called with `fuel = l.length`, which is
always sufficient (each step consumes at least one character). -/
def pySplitAux (s0 : Char) (srest : List Char) :
    Nat → List Char → List Char → List (List Char)
  | _, [], acc => [acc.reverse]
  | 0, x :: xs, acc => [acc.reverse ++ (x :: xs)]
  | fuel + 1, x :: xs, acc =>
    if (s0 :: srest).isPrefixOf (x :: xs) then
      acc.reverse :: pySplitAux s0 srest fuel (xs.drop srest.length) []
    else
      pySplitAux s0 srest fuel xs (x :: acc)

/-- Python `l.split(sep)` (Python raises on an empty separator; the
separators used by `BooleanRetrieval.search` are never empty). -/
def pySplit (sep l : List Char) : List (List Char) :=
  match sep with
  | [] => [l]
  | s0 :: srest => pySplitAux s0 srest l.length l []

/-- `BooleanRetrieval._process_term`: the set of doc ids of the term's
posting dictionary, empty for an unknown term. -/
def processTerm (st : InvertedIndex) (term : String) : Finset String :=
  (alKeys ((alGet st.index term).getD [])).toFinset

/-- `set(self.index.doc_lengths.keys())`, used by the `not` branch. -/
def allDocs (st : InvertedIndex) : Finset String :=
  (alKeys st.doc_lengths).toFinset

/-- `BooleanRetrieval.search`: lowercase and strip the query, then
dispatch on `" and "` / `" or "` / leading `"not "` / single term.
`parts.getD i []` models Python's `parts[i]` (in the branches taken the
split always has at least two parts). -/
def boolSearch (st : InvertedIndex) (query : String) : Finset String :=
  if " and ".data <:+: lowerTrim query then
    processTerm st (String.mk (trimChars
      ((pySplit " and ".data (lowerTrim query)).getD 0 []))) ∩
    processTerm st (String.mk (trimChars
      ((pySplit " and ".data (lowerTrim query)).getD 1 [])))
  else if " or ".data <:+: lowerTrim query then
    processTerm st (String.mk (trimChars
      ((pySplit " or ".data (lowerTrim query)).getD 0 []))) ∪
    processTerm st (String.mk (trimChars
      ((pySplit " or ".data (lowerTrim query)).getD 1 [])))
  else if "not ".data.isPrefixOf (lowerTrim query) then
    allDocs st \ processTerm st (String.mk (trimChars ((lowerTrim query).drop 4)))
  else
    processTerm st (String.mk (lowerTrim query))

/-- Split at the FIRST occurrence of `sep`, following the specification
text for the Boolean `and`/`or` queries ("split into exactly two operands
on the FIRST occurrence"); `none` when `sep` does not occur. -/
def firstSplitAux (sep : List Char) :
    List Char → List Char → Option (List Char × List Char)
  | [], _ => none
  | x :: xs, acc =>
    if sep.isPrefixOf (x :: xs) then
      some (acc.reverse, (x :: xs).drop sep.length)
    else firstSplitAux sep xs (x :: acc)

/-- The `and`-query evaluation described by the specification: split the
normalized query at the first occurrence of `" and "` into exactly two
operands and intersect their posting sets. -/
def specAndSearch (st : InvertedIndex) (query : String) : Finset String :=
  match firstSplitAux " and ".data (lowerTrim query) [] with
  | some (a, b) =>
      processTerm st (String.mk (trimChars a)) ∩
      processTerm st (String.mk (trimChars b))
  | none => ∅

theorem pySplitAux_length_pos (s0 : Char) (srest : List Char)
    (fuel : Nat) (l acc : List Char) :
    1 ≤ (pySplitAux s0 srest fuel l acc).length := by
  induction fuel generalizing l acc with
  | zero => cases l <;> simp [pySplitAux]
  | succ fuel ih =>
    cases l with
    | nil => simp [pySplitAux]
    | cons x xs =>
      rw [pySplitAux]
      by_cases hp : (s0 :: srest).isPrefixOf (x :: xs)
      · rw [if_pos hp]
        simp
      · rw [if_neg hp]
        exact ih xs (x :: acc)

theorem pySplitAux_length_ge_two (s0 : Char) (srest : List Char)
    (fuel : Nat) (l acc : List Char) (hfuel : l.length ≤ fuel)
    (hinf : (s0 :: srest) <:+: l) :
    2 ≤ (pySplitAux s0 srest fuel l acc).length := by
  induction fuel generalizing l acc with
  | zero =>
    have hl : l = [] := List.length_eq_zero.mp (Nat.le_zero.mp hfuel)
    subst hl
    have := hinf.length_le
    simp at this
  | succ fuel ih =>
    cases l with
    | nil =>
      have := hinf.length_le
      simp at this
    | cons x xs =>
      rw [pySplitAux]
      by_cases hp : (s0 :: srest).isPrefixOf (x :: xs)
      · rw [if_pos hp]
        have := pySplitAux_length_pos s0 srest fuel (xs.drop srest.length) []
        simp
        omega
      · rw [if_neg hp]
        refine ih xs (x :: acc) ?_ ?_
        · simp at hfuel
          omega
        · rcases List.infix_cons_iff.mp hinf with hpre | hxs
          · exfalso
            exact hp ( List.isPrefixOf_iff_prefix.mpr hpre)
          · exact hxs

theorem pySplit_length_ge_two (s0 : Char) (srest : List Char)
    (l : List Char) (hinf : (s0 :: srest) <:+: l) :
    2 ≤ (pySplit (s0 :: srest) l).length :=
  pySplitAux_length_ge_two s0 srest l.length l [] (Nat.le_refl _) hinf

theorem processTerm_build_subset (docs : List (String × List String))
    (hnd : (docs.map Prod.fst).Nodup) (term : String) :
    processTerm (build_index docs) term ⊆ (docs.map Prod.fst).toFinset := by
  intro x hx
  rw [processTerm, List.mem_toFinset] at hx
  rw [List.mem_toFinset]
  rw [alGet_build_index_index docs hnd term] at hx
  by_cases ho : occursIn docs term
  · rw [if_pos ho] at hx
    simp only [Option.getD_some] at hx
    have : alKeys (idxPostings docs term) =
        (docs.filter (fun p => decide (term ∈ p.2))).map Prod.fst := by
      rw [idxPostings, alKeys, List.map_map]
      rfl
    rw [this] at hx
    rcases List.mem_map.mp hx with ⟨p, hp, hpx⟩
    rw [← hpx]
    exact List.mem_map_of_mem Prod.fst (List.mem_of_mem_filter hp)
  · rw [if_neg ho] at hx
    simp [alKeys] at hx

theorem allDocs_build_subset (docs : List (String × List String))
    (hnd : (docs.map Prod.fst).Nodup) :
    allDocs (build_index docs) ⊆ (docs.map Prod.fst).toFinset := by
  intro x hx
  rw [allDocs, List.mem_toFinset] at hx
  rw [List.mem_toFinset]
  have hs : (alGet ((build_index docs).doc_lengths) x).isSome :=
    (alGet_isSome_iff _ _).mpr hx
  rw [alGet_build_index_doc_lengths docs hnd x] at hs
  cases hg : alGet docs x with
  | none => rw [hg] at hs; simp at hs
  | some ts => exact List.mem_map_of_mem Prod.fst (mem_of_alGet_eq_some hg)

/-- C4 (amended): on a query whose lowercased, trimmed form contains
`" and "`, `search` splits on EVERY occurrence of `" and "` and returns
the intersection of the posting sets of the first two parts (each
trimmed and looked up as a single literal term); parts beyond the second
are ignored.  The split always yields at least two parts. -/
theorem claim_C4 (st : InvertedIndex) (query : String)
    (h : " and ".data <:+: lowerTrim query) :
    2 ≤ (pySplit " and ".data (lowerTrim query)).length
    ∧ boolSearch st query =
      processTerm st (String.mk (trimChars
        ((pySplit " and ".data (lowerTrim query)).getD 0 []))) ∩
      processTerm st (String.mk (trimChars
        ((pySplit " and ".data (lowerTrim query)).getD 1 []))) := by
  constructor
  · exact pySplit_length_ge_two ' ' "and ".data (lowerTrim query) h
  · rw [boolSearch, if_pos h]

/-- Counterexample to C4 as stated: on the index of the single document
`d1 = [a, b]` and the query `"a and b and c"`, the code returns `{d1}`
(intersecting the postings of `a` and `b`), while splitting at the FIRST
occurrence of `" and "` would intersect the postings of `a` and of the
literal term `"b and c"`, giving the empty set. -/
theorem claim_C4_counterexample :
    boolSearch (build_index [("d1", ["a", "b"])]) "a and b and c" = {"d1"}
    ∧ specAndSearch (build_index [("d1", ["a", "b"])]) "a and b and c" = ∅
    ∧ boolSearch (build_index [("d1", ["a", "b"])]) "a and b and c" ≠
      specAndSearch (build_index [("d1", ["a", "b"])]) "a and b and c" :=
  ⟨by decide, by decide, by decide⟩

/-- Concrete instantiation of `claim_C4`. -/
theorem claim_C4_witness :
    (" and ".data <:+: lowerTrim "a and b and c")
    ∧ 2 ≤ (pySplit " and ".data (lowerTrim "a and b and c")).length
    ∧ boolSearch (build_index [("d1", ["a", "b"])]) "a and b and c" =
      processTerm (build_index [("d1", ["a", "b"])]) (String.mk (trimChars
        ((pySplit " and ".data (lowerTrim "a and b and c")).getD 0 []))) ∩
      processTerm (build_index [("d1", ["a", "b"])]) (String.mk (trimChars
        ((pySplit " and ".data (lowerTrim "a and b and c")).getD 1 []))) :=
  ⟨by decide,
   (claim_C4 (build_index [("d1", ["a", "b"])]) "a and b and c" (by decide)).1,
   (claim_C4 (build_index [("d1", ["a", "b"])]) "a and b and c" (by decide)).2⟩

/-- C10: `search` on a built index is total on every query string: in the
`and`/`or` branches the split has at least two parts (so the `parts[1]`
accesses cannot fail), and the returned set of doc ids is always a subset
of the ingested document ids. -/
theorem claim_C10 (docs : List (String × List String))
    (hnd : (docs.map Prod.fst).Nodup) (query : String) :
    ((" and ".data <:+: lowerTrim query →
      2 ≤ (pySplit " and ".data (lowerTrim query)).length)
    ∧ (" or ".data <:+: lowerTrim query →
      2 ≤ (pySplit " or ".data (lowerTrim query)).length))
    ∧ boolSearch (build_index docs) query ⊆ (docs.map Prod.fst).toFinset := by
  refine ⟨⟨fun h => pySplit_length_ge_two ' ' "and ".data _ h,
          fun h => pySplit_length_ge_two ' ' "or ".data _ h⟩, ?_⟩
  rw [boolSearch]
  by_cases h1 : " and ".data <:+: lowerTrim query
  · rw [if_pos h1]
    exact Finset.Subset.trans Finset.inter_subset_left
      (processTerm_build_subset docs hnd _)
  · rw [if_neg h1]
    by_cases h2 : " or ".data <:+: lowerTrim query
    · rw [if_pos h2]
      exact Finset.union_subset (processTerm_build_subset docs hnd _)
        (processTerm_build_subset docs hnd _)
    · rw [if_neg h2]
      by_cases h3 : "not ".data.isPrefixOf (lowerTrim query)
      · rw [if_pos h3]
        exact Finset.Subset.trans Finset.sdiff_subset
          (allDocs_build_subset docs hnd)
      · rw [if_neg h3]
        exact processTerm_build_subset docs hnd _

/-- Concrete instantiation of `claim_C10`. -/
theorem claim_C10_witness :
    ((([("d1", ["a", "b"])] : List (String × List String)).map Prod.fst).Nodup)
    ∧ (" and ".data <:+: lowerTrim "a and b and c")
    ∧ 2 ≤ (pySplit " and ".data (lowerTrim "a and b and c")).length
    ∧ boolSearch (build_index [("d1", ["a", "b"])]) "a and b and c" ⊆
      (([("d1", ["a", "b"])] : List (String × List String)).map Prod.fst).toFinset :=
  ⟨by decide, by decide,
   (claim_C10 [("d1", ["a", "b"])] (by decide) "a and b and c").1.1 (by decide),
   (claim_C10 [("d1", ["a", "b"])] (by decide) "a and b and c").2⟩

/-! ## Sparse TF-IDF vectorizer (`src/vector_retrieval.py`, `OptimizedTFIDF`) -/

/-- The character loop of `OptimizedTFIDF._tokenize`: accumulate runs of
alphabetic characters, emitting a word when a run of length `> 2` ends. -/
def tokLoop : List Char → List Char → List String
  | [], cur => if 2 < cur.length then [String.mk cur] else []
  | c :: rest, cur =>
    if c.isAlpha then tokLoop rest (cur ++ [c])
    else if cur ≠ [] then
      (if 2 < cur.length then [String.mk cur] else []) ++ tokLoop rest []
    else tokLoop rest []

/-- `OptimizedTFIDF._tokenize`: lowercase, split on non-alphabetic
characters, keep only words longer than 2 characters. -/
def tokenize (text : String) : List String :=
  tokLoop (text.data.map Char.toLower) []

/-- Insert into a list sorted descending by `key`, after all elements of
key `≥ key x` (the placement Python's stable descending sort gives to an
element that precedes the list's elements in the original order). -/
def insertDescBy {α β : Type} [LinearOrder β] (key : α → β) (x : α) :
    List α → List α
  | [] => [x]
  | y :: ys =>
    if key x < key y then y :: insertDescBy key x ys else x :: y :: ys

/-- `sorted(l, key=key, reverse=True)`: a stable descending sort. -/
def sortDescBy {α β : Type} [LinearOrder β] (key : α → β) : List α → List α
  | [] => []
  | x :: xs => insertDescBy key x (sortDescBy key xs)

theorem perm_insertDescBy {α β : Type} [LinearOrder β] (key : α → β)
    (x : α) (l : List α) : (insertDescBy key x l).Perm (x :: l) := by
  induction l with
  | nil => exact List.Perm.refl _
  | cons y ys ih =>
    rw [insertDescBy]
    by_cases h : key x < key y
    · rw [if_pos h]
      exact (List.Perm.cons y ih).trans (List.Perm.swap x y ys)
    · rw [if_neg h]

theorem perm_sortDescBy {α β : Type} [LinearOrder β] (key : α → β)
    (l : List α) : (sortDescBy key l).Perm l := by
  induction l with
  | nil => exact List.Perm.refl _
  | cons x xs ih =>
    rw [sortDescBy]
    exact (perm_insertDescBy key x (sortDescBy key xs)).trans (List.Perm.cons x ih)

theorem pairwise_insertDescBy {α β : Type} [LinearOrder β] (key : α → β)
    (x : α) (l : List α) (h : l.Pairwise (fun a b => key b ≤ key a)) :
    (insertDescBy key x l).Pairwise (fun a b => key b ≤ key a) := by
  induction l with
  | nil => simp [insertDescBy]
  | cons y ys ih =>
    rw [List.pairwise_cons] at h
    rw [insertDescBy]
    by_cases hxy : key x < key y
    · rw [if_pos hxy]
      rw [List.pairwise_cons]
      refine ⟨?_, ih h.2⟩
      intro z hz
      rcases List.mem_cons.mp ((perm_insertDescBy key x ys).mem_iff.mp hz) with hzx | hzy
      · rw [hzx]
        exact le_of_lt hxy
      · exact h.1 z hzy
    · rw [if_neg hxy]
      rw [List.pairwise_cons]
      refine ⟨?_, List.pairwise_cons.mpr h⟩
      intro z hz
      rcases List.mem_cons.mp hz with hzy | hzys
      · rw [hzy]
        exact le_of_not_lt hxy
      · exact le_trans (h.1 z hzys) (le_of_not_lt hxy)

theorem pairwise_sortDescBy {α β : Type} [LinearOrder β] (key : α → β)
    (l : List α) :
    (sortDescBy key l).Pairwise (fun a b => key b ≤ key a) := by
  induction l with
  | nil => simp [sortDescBy]
  | cons x xs ih => exact pairwise_insertDescBy key x _ ih

/-- A valid model of the iteration order of Python `set(terms)`: some
enumeration of the distinct elements of `terms`.  The actual order is
hash-dependent and unspecified, so it is a parameter of the model. -/
def ValidSetIter (setIter : List String → List String) : Prop :=
  ∀ ts : List String, (setIter ts).Perm ts.dedup

/-- Phase 1 of `fit_transform`: `term_doc_freq[term] += 1` once per
document for each member of `set(self._tokenize(doc))`. -/
def termDocFreq (documents : List String)
    (setIter : List String → List String) : List (String × Nat) :=
  documents.foldl (fun tdf doc =>
    (setIter (tokenize doc)).foldl
      (fun tdf t => alUpdate t (fun o => o.getD 0 + 1) tdf) tdf) []

/-- The document frequency of term `t`, as the specification defines it:
the number of documents whose token list contains `t`. -/
def dfSpec (documents : List String) (t : String) : Nat :=
  (documents.filter (fun doc => decide (t ∈ tokenize doc))).length

/-- `selected_terms`: the top `max_features` terms of the stable
descending document-frequency sort. -/
def selectedTerms (documents : List String)
    (setIter : List String → List String) (max_features : Nat) : List String :=
  ((sortDescBy (fun p => p.2) (termDocFreq documents setIter)).take
    max_features).map Prod.fst

/-- `self.vocab = {term: idx for idx, term in enumerate(selected_terms)}`. -/
def vocab (documents : List String) (setIter : List String → List String)
    (max_features : Nat) : List (String × Nat) :=
  (selectedTerms documents setIter max_features).enum.map (fun p => (p.2, p.1))

/-- `self.doc_freq = {term: term_doc_freq[term] for term in selected_terms}`. -/
def docFreq (documents : List String) (setIter : List String → List String)
    (max_features : Nat) : List (String × Nat) :=
  (selectedTerms documents setIter max_features).map
    (fun t => (t, (alGet (termDocFreq documents setIter) t).getD 0))

theorem alGet_termDocFreq_fold (setIter : List String → List String)
    (hvalid : ValidSetIter setIter) (documents : List String)
    (m0 : List (String × Nat)) (t : String) :
    alGet (documents.foldl (fun tdf doc =>
        (setIter (tokenize doc)).foldl
          (fun tdf t => alUpdate t (fun o => o.getD 0 + 1) tdf) tdf) m0) t =
      if documents.any (fun doc => decide (t ∈ tokenize doc)) then
        some ((alGet m0 t).getD 0 +
          (documents.filter (fun doc => decide (t ∈ tokenize doc))).length)
      else alGet m0 t := by
  induction documents generalizing m0 with
  | nil => simp
  | cons doc rest ih =>
    have hstep : (doc :: rest).foldl (fun tdf doc =>
        (setIter (tokenize doc)).foldl
          (fun tdf t => alUpdate t (fun o => o.getD 0 + 1) tdf) tdf) m0 =
        rest.foldl (fun tdf doc =>
          (setIter (tokenize doc)).foldl
            (fun tdf t => alUpdate t (fun o => o.getD 0 + 1) tdf) tdf)
          ((setIter (tokenize doc)).foldl
            (fun tdf t => alUpdate t (fun o => o.getD 0 + 1) tdf) m0) := rfl
    rw [hstep, ih]
    have hmem : t ∈ setIter (tokenize doc) ↔ t ∈ tokenize doc := by
      rw [(hvalid (tokenize doc)).mem_iff, List.mem_dedup]
    have hm1 := alGet_countFold (setIter (tokenize doc)) m0 t
    by_cases hin : t ∈ tokenize doc
    · have hcnt : (setIter (tokenize doc)).count t = 1 := by
        rw [(hvalid (tokenize doc)).count_eq, List.count_dedup, if_pos hin]
      rw [if_pos (hmem.mpr hin), hcnt] at hm1
      have hany : (doc :: rest).any (fun doc => decide (t ∈ tokenize doc)) = true := by
        simp [List.any_cons, hin]
      have hfil : ((doc :: rest).filter (fun doc => decide (t ∈ tokenize doc))) =
          doc :: rest.filter (fun doc => decide (t ∈ tokenize doc)) := by
        rw [List.filter_cons]
        simp [hin]
      rw [hany, hfil]
      by_cases hrest : rest.any (fun doc => decide (t ∈ tokenize doc))
      · rw [if_pos hrest, hm1]
        simp
        omega
      · rw [if_neg hrest, hm1]
        have hfil0 : (rest.filter (fun doc => decide (t ∈ tokenize doc))) = [] := by
          rw [List.filter_eq_nil_iff]
          intro doc1 hdoc1
          simp only [List.any_eq_true, not_exists] at hrest
          have := hrest doc1
          simp at this
          simpa using this hdoc1

        simp [hfil0]
    · rw [if_neg (fun h => hin (hmem.mp h))] at hm1
      have hany : ((doc :: rest).any (fun doc => decide (t ∈ tokenize doc))) =
          (rest.any (fun doc => decide (t ∈ tokenize doc))) := by
        simp [List.any_cons, hin]
      have hfil : ((doc :: rest).filter (fun doc => decide (t ∈ tokenize doc))) =
          rest.filter (fun doc => decide (t ∈ tokenize doc)) := by
        rw [List.filter_cons]
        simp [hin]
      rw [hany, hfil, hm1]

theorem alGet_termDocFreq (documents : List String)
    (setIter : List String → List String) (hvalid : ValidSetIter setIter)
    (t : String) :
    alGet (termDocFreq documents setIter) t =
      if documents.any (fun doc => decide (t ∈ tokenize doc)) then
        some (dfSpec documents t)
      else none := by
  rw [termDocFreq, alGet_termDocFreq_fold setIter hvalid documents [] t]
  by_cases h : documents.any (fun doc => decide (t ∈ tokenize doc)) <;>
    simp [h, alGet, dfSpec]

theorem alKeys_termDocFreq_nodup (documents : List String)
    (setIter : List String → List String) :
    (alKeys (termDocFreq documents setIter)).Nodup := by
  have hgen : ∀ (l : List String) (m0 : List (String × Nat)),
      (alKeys m0).Nodup →
      (alKeys (l.foldl (fun tdf doc =>
        (setIter (tokenize doc)).foldl
          (fun tdf t => alUpdate t (fun o => o.getD 0 + 1) tdf) tdf) m0)).Nodup := by
    intro l
    induction l with
    | nil => intro m0 h; exact h
    | cons doc rest ih =>
      intro m0 h
      exact ih _ (alKeys_nodup_foldl (fun t => t) (fun _ o => o.getD 0 + 1)
        (setIter (tokenize doc)) m0 h)
  exact hgen documents [] List.nodup_nil

theorem alKeys_vocab (documents : List String)
    (setIter : List String → List String) (F : Nat) :
    alKeys (vocab documents setIter F) = selectedTerms documents setIter F := by
  rw [vocab, alKeys, List.map_map]
  have h : (Prod.fst ∘ fun p : Nat × String => (p.2, p.1)) = Prod.snd := rfl
  rw [h, List.enum_map_snd]

theorem selectedTerms_nodup (documents : List String)
    (setIter : List String → List String) (F : Nat) :
    (selectedTerms documents setIter F).Nodup := by
  rw [selectedTerms]
  have hperm : ((sortDescBy (fun p => p.2) (termDocFreq documents setIter)).map
      Prod.fst).Perm (alKeys (termDocFreq documents setIter)) :=
    List.Perm.map Prod.fst (perm_sortDescBy _ _)
  have hnd : ((sortDescBy (fun p => p.2) (termDocFreq documents setIter)).map
      Prod.fst).Nodup :=
    hperm.nodup_iff.mpr (alKeys_termDocFreq_nodup documents setIter)
  exact List.Nodup.sublist
    (List.Sublist.map Prod.fst (List.take_sublist F _)) hnd

theorem selectedTerms_length_le (documents : List String)
    (setIter : List String → List String) (F : Nat) :
    (selectedTerms documents setIter F).length ≤ F := by
  rw [selectedTerms, List.length_map, List.length_take]
  exact min_le_left F _

theorem alGet_vocabAux (l : List String) (n : Nat) (t : String) :
    alGet ((List.enumFrom n l).map (fun p => (p.2, p.1))) t =
      if t ∈ l then some (n + l.indexOf t) else none := by
  induction l generalizing n with
  | nil => simp [alGet]
  | cons a rest ih =>
    rw [List.enumFrom_cons, List.map_cons]
    by_cases hat : a = t
    · subst hat
      rw [alGet, if_pos rfl, if_pos (List.mem_cons_self a rest), List.indexOf_cons]
      simp
    · rw [alGet, if_neg hat, ih (n + 1)]
      by_cases hmem : t ∈ rest
      · have hmem2 : t ∈ a :: rest := List.mem_cons_of_mem a hmem
        rw [if_pos hmem, if_pos hmem2, List.indexOf_cons]
        have hba : (a == t) = false := by simp [hat]
        simp only [hba, Bool.cond_false]
        congr 1
        omega
      · have hmem2 : t ∉ a :: rest := by
          intro hc
          rcases List.mem_cons.mp hc with hc1 | hc2
          · exact hat hc1.symm
          · exact hmem hc2
        rw [if_neg hmem, if_neg hmem2]

theorem alGet_vocab (documents : List String)
    (setIter : List String → List String) (F : Nat) (t : String) :
    alGet (vocab documents setIter F) t =
      if t ∈ selectedTerms documents setIter F
      then some ((selectedTerms documents setIter F).indexOf t) else none := by
  refine (alGet_vocabAux (selectedTerms documents setIter F) 0 t).trans ?_
  by_cases h : t ∈ selectedTerms documents setIter F <;> simp [h]

theorem vocab_index_inj (documents : List String)
    (setIter : List String → List String) (F : Nat) {t1 t2 : String} {i : Nat}
    (h1 : alGet (vocab documents setIter F) t1 = some i)
    (h2 : alGet (vocab documents setIter F) t2 = some i) : t1 = t2 := by
  rw [alGet_vocab] at h1 h2
  by_cases hm1 : t1 ∈ selectedTerms documents setIter F
  · by_cases hm2 : t2 ∈ selectedTerms documents setIter F
    · rw [if_pos hm1] at h1
      rw [if_pos hm2] at h2
      have e1 : (selectedTerms documents setIter F).indexOf t1 = i :=
        Option.some.injEq .. ▸ h1
      have e2 : (selectedTerms documents setIter F).indexOf t2 = i :=
        Option.some.injEq .. ▸ h2
      have g1 : (selectedTerms documents setIter F).get? i = some t1 := by
        rw [← e1]
        exact List.indexOf_get? hm1
      have g2 : (selectedTerms documents setIter F).get? i = some t2 := by
        rw [← e2]
        exact List.indexOf_get? hm2
      rw [g1] at g2
      exact Option.some.injEq .. ▸ g2
    · rw [if_neg hm2] at h2
      exact absurd h2 (by simp)
  · rw [if_neg hm1] at h1
    exact absurd h1 (by simp)

/-- `tf_dict` of one document: `if term in self.vocab: tf_dict[term] += 1`. -/
def tfDict (voc : List (String × Nat)) (terms : List String) :
    List (String × Nat) :=
  terms.foldl (fun m t =>
    if (alGet voc t).isSome then alUpdate t (fun o => o.getD 0 + 1) m else m) []

theorem foldl_filter {α σ : Type} (p : α → Bool) (f : σ → α → σ)
    (l : List α) (s0 : σ) :
    l.foldl (fun s a => if p a then f s a else s) s0 =
      (l.filter p).foldl f s0 := by
  induction l generalizing s0 with
  | nil => rfl
  | cons a rest ih =>
    rw [List.filter_cons]
    by_cases hp : p a = true
    · simp only [List.foldl_cons, hp, if_true]
      rw [ih]
    · simp only [List.foldl_cons, hp, if_false]
      rw [Bool.not_eq_true] at hp
      simp only [hp, Bool.false_eq_true, if_false]
      exact ih s0

theorem alGet_tfDict (voc : List (String × Nat)) (terms : List String)
    (t : String) :
    alGet (tfDict voc terms) t =
      if t ∈ terms ∧ (alGet voc t).isSome
      then some (terms.count t) else none := by
  rw [tfDict, foldl_filter (fun t => (alGet voc t).isSome)
    (fun m t => alUpdate t (fun o => o.getD 0 + 1) m) terms []]
  rw [alGet_countFold]
  by_cases hs : (alGet voc t).isSome
  · by_cases hm : t ∈ terms
    · have hf : t ∈ terms.filter (fun t => (alGet voc t).isSome) :=
        List.mem_filter.mpr ⟨hm, hs⟩
      rw [if_pos hf, if_pos ⟨hm, hs⟩]
      have hc : List.count t (terms.filter (fun t => (alGet voc t).isSome)) =
          List.count t terms := List.count_filter hs
      rw [hc]
      simp [alGet]
    · have hf : t ∉ terms.filter (fun t => (alGet voc t).isSome) := by
        intro hc
        exact hm (List.mem_of_mem_filter hc)
      rw [if_neg hf, if_neg (fun hc => hm hc.1)]
      rfl
  · have hf : t ∉ terms.filter (fun t => (alGet voc t).isSome) := by
      intro hc
      exact hs ((List.mem_filter.mp hc).2)
    rw [if_neg hf, if_neg (fun hc => hs hc.2)]
    rfl

theorem alKeys_tfDict_nodup (voc : List (String × Nat)) (terms : List String) :
    (alKeys (tfDict voc terms)).Nodup := by
  rw [tfDict, foldl_filter (fun t => (alGet voc t).isSome)
    (fun m t => alUpdate t (fun o => o.getD 0 + 1) m) terms []]
  exact alKeys_nodup_foldl (fun t => t) (fun _ o => o.getD 0 + 1) _ []
    List.nodup_nil

theorem mem_alKeys_tfDict (voc : List (String × Nat)) (terms : List String)
    (t : String) :
    t ∈ alKeys (tfDict voc terms) ↔ t ∈ terms ∧ (alGet voc t).isSome := by
  rw [← alGet_isSome_iff, alGet_tfDict]
  by_cases h : t ∈ terms ∧ (alGet voc t).isSome <;> simp [h]

/-- The sparse TF-IDF vector of one document (second phase of
`fit_transform`): empty when the document has no tokens, otherwise
`sparse_vector[idx] = (count / term_count) * log(doc_count / (doc_freq + 1))`
for each vocabulary term of the document. -/
noncomputable def sparseVector (voc dfq : List (String × Nat))
    (doc_count : Nat) (terms : List String) : List (Nat × ℝ) :=
  if terms.length = 0 then [] else
  (tfDict voc terms).foldl (fun sv p =>
    if (alGet voc p.1).isSome then
      alUpdate ((alGet voc p.1).getD 0)
        (fun _ => ((p.2 : ℝ) / (terms.length : ℝ)) *
          Real.log ((doc_count : ℝ) / (((alGet dfq p.1).getD 0 : ℝ) + 1)))
        sv
    else sv) []

/-- `OptimizedTFIDF.fit_transform` (cache path disabled): fit the
vocabulary and document frequencies on `documents`, then produce the
sparse vector of each document, in order. -/
noncomputable def fit_transform (documents : List String)
    (setIter : List String → List String) (max_features : Nat) :
    List (List (Nat × ℝ)) :=
  documents.map (fun doc =>
    sparseVector (vocab documents setIter max_features)
      (docFreq documents setIter max_features) documents.length (tokenize doc))

theorem foldl_alUpdate_keyf_append {κ α β : Type} [DecidableEq κ]
    (keyf : α → κ) (g : α → β) (m : List α) (acc0 : List (κ × β))
    (hnd : (m.map keyf).Nodup) (hfr : ∀ q ∈ m, alGet acc0 (keyf q) = none) :
    m.foldl (fun acc q => alUpdate (keyf q) (fun _ => g q) acc) acc0 =
      acc0 ++ m.map (fun q => (keyf q, g q)) := by
  induction m generalizing acc0 with
  | nil => simp
  | cons q rest ih =>
    rw [List.map_cons, List.nodup_cons] at hnd
    have hq : alGet acc0 (keyf q) = none := hfr q (List.mem_cons_self _ _)
    have hstep : (q :: rest).foldl
        (fun acc q => alUpdate (keyf q) (fun _ => g q) acc) acc0 =
        rest.foldl (fun acc q => alUpdate (keyf q) (fun _ => g q) acc)
          (alUpdate (keyf q) (fun _ => g q) acc0) := rfl
    rw [hstep, alUpdate_of_alGet_eq_none _ hq]
    have hfr1 : ∀ r ∈ rest, alGet (acc0 ++ [(keyf q, g q)]) (keyf r) = none := by
      intro r hr
      rw [alGet_append, hfr r (List.mem_cons_of_mem _ hr)]
      have hne : ¬ keyf q = keyf r := by
        intro hc
        exact hnd.1 (hc ▸ List.mem_map_of_mem keyf hr)
      simp [alGet, hne]
    rw [ih _ hnd.2 hfr1, List.append_assoc]
    rfl

theorem tfDict_indices_nodup (voc : List (String × Nat)) (terms : List String)
    (hinj : ∀ t1 t2 i, alGet voc t1 = some i → alGet voc t2 = some i → t1 = t2) :
    ((tfDict voc terms).map (fun q => (alGet voc q.1).getD 0)).Nodup := by
  have hknd := alKeys_tfDict_nodup voc terms
  have hend : (tfDict voc terms).Nodup := by
    have : alKeys (tfDict voc terms) = (tfDict voc terms).map Prod.fst := rfl
    rw [this] at hknd
    exact List.Nodup.of_map Prod.fst hknd
  refine List.Nodup.map_on ?_ hend
  intro q1 h1 q2 h2 heq
  have hk1 : q1.1 ∈ alKeys (tfDict voc terms) :=
    List.mem_map_of_mem Prod.fst h1
  have hk2 : q2.1 ∈ alKeys (tfDict voc terms) :=
    List.mem_map_of_mem Prod.fst h2
  have hs1 := ((mem_alKeys_tfDict voc terms q1.1).mp hk1).2
  have hs2 := ((mem_alKeys_tfDict voc terms q2.1).mp hk2).2
  obtain ⟨i1, hi1⟩ := Option.isSome_iff_exists.mp hs1
  obtain ⟨i2, hi2⟩ := Option.isSome_iff_exists.mp hs2
  rw [hi1, hi2] at heq
  simp only [Option.getD_some] at heq
  have hteq : q1.1 = q2.1 := hinj q1.1 q2.1 i1 hi1 (by rw [hi2, heq])
  have hv1 : alGet (tfDict voc terms) q1.1 = some q1.2 :=
    alGet_eq_some_of_mem hknd h1
  have hv2 : alGet (tfDict voc terms) q2.1 = some q2.2 :=
    alGet_eq_some_of_mem hknd h2
  rw [← hteq] at hv2
  rw [hv1] at hv2
  have hveq : q1.2 = q2.2 := Option.some.injEq .. ▸ hv2
  exact Prod.ext hteq hveq

theorem mem_selectedTerms_sub (documents : List String)
    (setIter : List String → List String) (F : Nat) (t : String)
    (h : t ∈ selectedTerms documents setIter F) :
    t ∈ alKeys (termDocFreq documents setIter) := by
  rw [selectedTerms] at h
  rcases List.mem_map.mp h with ⟨e, he, hft⟩
  have hesort : e ∈ sortDescBy (fun p => p.2) (termDocFreq documents setIter) :=
    (List.take_sublist F _).subset he
  have hetdf : e ∈ termDocFreq documents setIter :=
    (perm_sortDescBy _ _).mem_iff.mp hesort
  rw [← hft]
  exact List.mem_map_of_mem Prod.fst hetdf

theorem alGet_docFreq (documents : List String)
    (setIter : List String → List String) (hvalid : ValidSetIter setIter)
    (F : Nat) (t : String) (h : t ∈ selectedTerms documents setIter F) :
    alGet (docFreq documents setIter F) t = some (dfSpec documents t) := by
  have hnd : (alKeys (docFreq documents setIter F)).Nodup := by
    rw [docFreq, alKeys, List.map_map]
    have hcomp : (Prod.fst ∘ fun t =>
        (t, (alGet (termDocFreq documents setIter) t).getD 0)) = id := rfl
    rw [hcomp, List.map_id]
    exact selectedTerms_nodup documents setIter F
  have hmem : (t, (alGet (termDocFreq documents setIter) t).getD 0) ∈
      docFreq documents setIter F := by
    rw [docFreq]
    exact List.mem_map_of_mem _ h
  rw [alGet_eq_some_of_mem hnd hmem]
  congr 1
  have hks := mem_selectedTerms_sub documents setIter F t h
  have hsome := (alGet_isSome_iff _ _).mpr hks
  rw [alGet_termDocFreq documents setIter hvalid t] at hsome ⊢
  by_cases hany : documents.any (fun doc => decide (t ∈ tokenize doc))
  · rw [if_pos hany]
    rfl
  · rw [if_neg hany] at hsome
    simp at hsome

theorem sparseVector_eq_map (voc dfq : List (String × Nat)) (doc_count : Nat)
    (terms : List String)
    (hidx : ((tfDict voc terms).map (fun q => (alGet voc q.1).getD 0)).Nodup)
    (hterms : ¬ terms.length = 0) :
    sparseVector voc dfq doc_count terms =
      (tfDict voc terms).map (fun q => ((alGet voc q.1).getD 0,
        ((q.2 : ℝ) / (terms.length : ℝ)) *
          Real.log ((doc_count : ℝ) / (((alGet dfq q.1).getD 0 : ℝ) + 1)))) := by
  rw [sparseVector, if_neg hterms]
  rw [foldl_filter (fun p => (alGet voc p.1).isSome)
    (fun sv p => alUpdate ((alGet voc p.1).getD 0)
      (fun _ => ((p.2 : ℝ) / (terms.length : ℝ)) *
        Real.log ((doc_count : ℝ) / (((alGet dfq p.1).getD 0 : ℝ) + 1))) sv)
    (tfDict voc terms) []]
  have hall : (tfDict voc terms).filter (fun p => (alGet voc p.1).isSome) =
      tfDict voc terms := by
    rw [List.filter_eq_self]
    intro q hq
    have hk : q.1 ∈ alKeys (tfDict voc terms) :=
      List.mem_map_of_mem Prod.fst hq
    exact ((mem_alKeys_tfDict voc terms q.1).mp hk).2
  rw [hall]
  rw [foldl_alUpdate_keyf_append (fun q => (alGet voc q.1).getD 0)
    (fun q => ((q.2 : ℝ) / (terms.length : ℝ)) *
      Real.log ((doc_count : ℝ) / (((alGet dfq q.1).getD 0 : ℝ) + 1)))
    (tfDict voc terms) [] hidx (fun q _ => rfl)]
  rw [List.nil_append]

theorem fit_transform_entry (documents : List String)
    (setIter : List String → List String) (hvalid : ValidSetIter setIter)
    (F : Nat) (i : Nat) (doc : String) (hdoc : documents.get? i = some doc) :
    ∃ v, (fit_transform documents setIter F).get? i = some v
    ∧ (∀ t, t ∈ alKeys (vocab documents setIter F) → t ∈ tokenize doc →
        alGet v ((alGet (vocab documents setIter F) t).getD 0) =
          some ((((tokenize doc).count t : ℝ) / ((tokenize doc).length : ℝ)) *
            Real.log ((documents.length : ℝ) / ((dfSpec documents t : ℝ) + 1))))
    ∧ (∀ j, j ∈ alKeys v →
        ∃ t, alGet (vocab documents setIter F) t = some j ∧ t ∈ tokenize doc)
    ∧ (tokenize doc = [] → v = []) := by
  have hinj : ∀ t1 t2 i0, alGet (vocab documents setIter F) t1 = some i0 →
      alGet (vocab documents setIter F) t2 = some i0 → t1 = t2 :=
    fun t1 t2 i0 h1 h2 => vocab_index_inj documents setIter F h1 h2
  have hidxnd := tfDict_indices_nodup (vocab documents setIter F)
    (tokenize doc) hinj
  refine ⟨sparseVector (vocab documents setIter F)
    (docFreq documents setIter F) documents.length (tokenize doc), ?_, ?_, ?_, ?_⟩
  · rw [fit_transform, List.get?_map, hdoc]
    rfl
  · intro t htv htok
    have hne : ¬ (tokenize doc).length = 0 := by
      intro h0
      rw [List.length_eq_zero] at h0
      rw [h0] at htok
      simp at htok
    rw [sparseVector_eq_map _ _ _ _ hidxnd hne]
    have hs : (alGet (vocab documents setIter F) t).isSome :=
      (alGet_isSome_iff _ _).mpr htv
    have htf : alGet (tfDict (vocab documents setIter F) (tokenize doc)) t =
        some ((tokenize doc).count t) := by
      rw [alGet_tfDict, if_pos ⟨htok, hs⟩]
    have hmemtf := mem_of_alGet_eq_some htf
    have hmem2 : ((alGet (vocab documents setIter F) t).getD 0,
        ((((tokenize doc).count t : Nat) : ℝ) / ((tokenize doc).length : ℝ)) *
          Real.log ((documents.length : ℝ) /
            (((alGet (docFreq documents setIter F) t).getD 0 : ℝ) + 1))) ∈
        (tfDict (vocab documents setIter F) (tokenize doc)).map
          (fun q => ((alGet (vocab documents setIter F) q.1).getD 0,
            ((q.2 : ℝ) / ((tokenize doc).length : ℝ)) *
              Real.log ((documents.length : ℝ) /
                (((alGet (docFreq documents setIter F) q.1).getD 0 : ℝ) + 1)))) :=
      List.mem_map_of_mem _ hmemtf
    have hknd : (alKeys ((tfDict (vocab documents setIter F) (tokenize doc)).map
        (fun q => ((alGet (vocab documents setIter F) q.1).getD 0,
          ((q.2 : ℝ) / ((tokenize doc).length : ℝ)) *
            Real.log ((documents.length : ℝ) /
              (((alGet (docFreq documents setIter F) q.1).getD 0 : ℝ) + 1)))))).Nodup := by
      rw [alKeys, List.map_map]
      exact hidxnd
    have hfin := alGet_eq_some_of_mem hknd hmem2
    have hdf : ((alGet (docFreq documents setIter F) t).getD 0 : Nat) =
        dfSpec documents t := by
      rw [alKeys_vocab] at htv
      rw [alGet_docFreq documents setIter hvalid F t htv]
      rfl
    rw [hdf] at hfin
    exact hfin
  · intro j hj
    by_cases hlen : (tokenize doc).length = 0
    · rw [sparseVector, if_pos hlen] at hj
      simp [alKeys] at hj
    · rw [sparseVector_eq_map _ _ _ _ hidxnd hlen] at hj
      rw [alKeys, List.map_map] at hj
      rcases List.mem_map.mp hj with ⟨q, hq, hqj⟩
      have hk : q.1 ∈ alKeys (tfDict (vocab documents setIter F) (tokenize doc)) :=
        List.mem_map_of_mem Prod.fst hq
      obtain ⟨hmemterms, hsq⟩ :=
        (mem_alKeys_tfDict (vocab documents setIter F) (tokenize doc) q.1).mp hk
      obtain ⟨i0, hi0⟩ := Option.isSome_iff_exists.mp hsq
      refine ⟨q.1, ?_, hmemterms⟩
      rw [hi0]
      have : ((alGet (vocab documents setIter F) q.1).getD 0 : Nat) = j := hqj
      rw [hi0] at this
      simp only [Option.getD_some] at this
      rw [this]
  · intro h0
    rw [sparseVector, if_pos (by rw [h0]; rfl)]

/-- C3: for every document collection, valid set-iteration order, feature
bound and document `doc`, `fit_transform` gives `doc` a sparse vector in
which every vocabulary term occurring in `doc` has the weight
`(count(t,doc) / totalTokens(doc)) * ln(totalDocs / (documentFrequency(t) + 1))`,
every stored index belongs to a vocabulary term occurring in `doc` (terms
outside the vocabulary get no entry), and a document with zero tokens
yields an empty vector. -/
theorem claim_C3 (documents : List String)
    (setIter : List String → List String) (hvalid : ValidSetIter setIter)
    (F : Nat) (i : Nat) (doc : String) (hdoc : documents.get? i = some doc) :
    ∃ v, (fit_transform documents setIter F).get? i = some v
    ∧ (∀ t, t ∈ alKeys (vocab documents setIter F) → t ∈ tokenize doc →
        alGet v ((alGet (vocab documents setIter F) t).getD 0) =
          some ((((tokenize doc).count t : ℝ) / ((tokenize doc).length : ℝ)) *
            Real.log ((documents.length : ℝ) / ((dfSpec documents t : ℝ) + 1))))
    ∧ (∀ j, j ∈ alKeys v →
        ∃ t, alGet (vocab documents setIter F) t = some j ∧ t ∈ tokenize doc)
    ∧ (tokenize doc = [] → v = []) :=
  fit_transform_entry documents setIter hvalid F i doc hdoc

/-- Concrete instantiation of `claim_C3`. -/
theorem claim_C3_witness :
    ValidSetIter (fun ts => ts.dedup)
    ∧ (["aaa bbb", "aaa"] : List String).get? 0 = some "aaa bbb"
    ∧ ∃ v, (fit_transform ["aaa bbb", "aaa"] (fun ts => ts.dedup) 50000).get? 0 =
        some v
      ∧ alGet v ((alGet (vocab ["aaa bbb", "aaa"] (fun ts => ts.dedup) 50000)
          "aaa").getD 0) =
        some ((((tokenize "aaa bbb").count "aaa" : ℝ) /
            ((tokenize "aaa bbb").length : ℝ)) *
          Real.log (((["aaa bbb", "aaa"] : List String).length : ℝ) /
            ((dfSpec ["aaa bbb", "aaa"] "aaa" : ℝ) + 1))) := by
  refine ⟨fun ts => List.Perm.refl _, rfl, ?_⟩
  obtain ⟨v, hv, hform, _, _⟩ := claim_C3 ["aaa bbb", "aaa"]
    (fun ts => ts.dedup) (fun ts => List.Perm.refl _) 50000 0 "aaa bbb" rfl
  exact ⟨v, hv, hform "aaa" (by decide) (by decide)⟩

/-- C9 (amended): every sparse document vector maps vocabulary indices
only of vocabulary terms occurring in the document (terms outside the
vocabulary are omitted), and every vocabulary term occurring in the
document has an entry — whose TF-IDF weight may be `0`; zero weights are
stored, not omitted. -/
theorem claim_C9 (documents : List String)
    (setIter : List String → List String) (hvalid : ValidSetIter setIter)
    (F : Nat) (i : Nat) (doc : String) (hdoc : documents.get? i = some doc) :
    ∃ v, (fit_transform documents setIter F).get? i = some v
    ∧ (∀ j, j ∈ alKeys v →
        ∃ t, alGet (vocab documents setIter F) t = some j ∧ t ∈ tokenize doc)
    ∧ (∀ t, t ∈ alKeys (vocab documents setIter F) → t ∈ tokenize doc →
        (alGet v ((alGet (vocab documents setIter F) t).getD 0)).isSome) := by
  obtain ⟨v, hv, hform, homit, _⟩ :=
    fit_transform_entry documents setIter hvalid F i doc hdoc
  refine ⟨v, hv, homit, ?_⟩
  intro t h1 h2
  rw [hform t h1 h2]
  rfl

/-- Counterexample to C9 as stated: on the collection
`["aaa bbb", "aaa"]`, term `bbb` occurs in 1 of 2 documents, so its
smoothed IDF is `ln(2/2) = 0`, and the first document's sparse vector
stores the weight `0` at `bbb`'s vocabulary index `1` instead of omitting
it. -/
theorem claim_C9_counterexample :
    ∃ v, (fit_transform ["aaa bbb", "aaa"] (fun ts => ts.dedup) 50000).get? 0 =
        some v
      ∧ alGet v 1 = some (0 : ℝ) := by
  obtain ⟨v, hv, hform, _, _⟩ := fit_transform_entry ["aaa bbb", "aaa"]
    (fun ts => ts.dedup) (fun ts => List.Perm.refl _) 50000 0 "aaa bbb" rfl
  refine ⟨v, hv, ?_⟩
  have h := hform "bbb" (by decide) (by decide)
  have hidx : ((alGet (vocab ["aaa bbb", "aaa"] (fun ts => ts.dedup) 50000)
      "bbb").getD 0 : Nat) = 1 := by decide
  rw [hidx] at h
  rw [h]
  congr 1
  have hc : (tokenize "aaa bbb").count "bbb" = 1 := by decide
  have hl : (tokenize "aaa bbb").length = 2 := by decide
  have hd : dfSpec ["aaa bbb", "aaa"] "bbb" = 1 := by decide
  have hn : (["aaa bbb", "aaa"] : List String).length = 2 := rfl
  rw [hc, hl, hd, hn]
  push_cast
  rw [show (2 : ℝ) / (1 + 1) = 1 by norm_num, Real.log_one, mul_zero]

theorem tdf_entry_value (documents : List String)
    (setIter : List String → List String) (hvalid : ValidSetIter setIter)
    {e : String × Nat} (he : e ∈ termDocFreq documents setIter) :
    e.2 = dfSpec documents e.1 := by
  have hnd := alKeys_termDocFreq_nodup documents setIter
  have hsome : alGet (termDocFreq documents setIter) e.1 = some e.2 :=
    alGet_eq_some_of_mem hnd he
  rw [alGet_termDocFreq documents setIter hvalid e.1] at hsome
  by_cases hany : documents.any (fun doc => decide (e.1 ∈ tokenize doc))
  · rw [if_pos hany] at hsome
    exact (Option.some.injEq .. ▸ hsome).symm
  · rw [if_neg hany] at hsome
    simp at hsome

theorem dfSpec_not_mem (documents : List String)
    (setIter : List String → List String) (hvalid : ValidSetIter setIter)
    (s : String) (h : s ∉ alKeys (termDocFreq documents setIter)) :
    dfSpec documents s = 0 := by
  have hnone : alGet (termDocFreq documents setIter) s = none :=
    (alGet_eq_none_iff _ _).mpr h
  rw [alGet_termDocFreq documents setIter hvalid s] at hnone
  by_cases hany : documents.any (fun doc => decide (s ∈ tokenize doc))
  · rw [if_pos hany] at hnone
    simp at hnone
  · rw [dfSpec, List.length_eq_zero, List.filter_eq_nil_iff]
    intro doc hdoc
    simp only [List.any_eq_true, not_exists] at hany
    have hd := hany doc
    simp at hd
    simpa using hd hdoc

/-- C5 (amended): the fitted vocabulary has at most `maxFeatures` terms;
every selected term's document frequency is at least every non-selected
term's; and with `maxFeatures = 1` and a non-empty term table the
vocabulary is exactly one term of maximal document frequency.  The choice
among tied terms follows the model's set-iteration order parameter and is
NOT deterministic (see the counterexample). -/
theorem claim_C5 (documents : List String)
    (setIter : List String → List String) (hvalid : ValidSetIter setIter)
    (F : Nat) :
    ((alKeys (vocab documents setIter F)).length ≤ F)
    ∧ (∀ t s, t ∈ alKeys (vocab documents setIter F) →
        s ∉ alKeys (vocab documents setIter F) →
        dfSpec documents s ≤ dfSpec documents t)
    ∧ (F = 1 → termDocFreq documents setIter ≠ [] →
        ∃ t, alKeys (vocab documents setIter F) = [t] ∧
          ∀ s, dfSpec documents s ≤ dfSpec documents t) := by
  rw [alKeys_vocab]
  refine ⟨selectedTerms_length_le documents setIter F, ?_, ?_⟩
  · intro t s ht hs
    have ht' := ht
    rw [selectedTerms] at ht'
    rcases List.mem_map.mp ht' with ⟨e, he, het⟩
    have hesort := (List.take_sublist F _).subset he
    have hetdf := (perm_sortDescBy (fun p : String × Nat => p.2) _).mem_iff.mp hesort
    have het2 : e.2 = dfSpec documents t := by
      rw [tdf_entry_value documents setIter hvalid hetdf, het]
    by_cases hsk : s ∈ alKeys (termDocFreq documents setIter)
    · rcases List.mem_map.mp hsk with ⟨es, hes, hest⟩
      have hes2 : es.2 = dfSpec documents s := by
        rw [tdf_entry_value documents setIter hvalid hes, hest]
      have hessorted : es ∈ sortDescBy (fun p : String × Nat => p.2)
          (termDocFreq documents setIter) :=
        (perm_sortDescBy _ _).mem_iff.mpr hes
      have hsplit := List.take_append_drop F
        (sortDescBy (fun p : String × Nat => p.2) (termDocFreq documents setIter))
      rcases List.mem_append.mp (by rw [hsplit]; exact hessorted) with htk | hdr
      · exfalso
        apply hs
        rw [selectedTerms, ← hest]
        exact List.mem_map_of_mem Prod.fst htk
      · have hpw := pairwise_sortDescBy (fun p : String × Nat => p.2)
          (termDocFreq documents setIter)
        rw [← hsplit] at hpw
        have hcross := (List.pairwise_append.mp hpw).2.2 e he es hdr
        rw [hes2, het2] at hcross
        exact hcross
    · rw [dfSpec_not_mem documents setIter hvalid s hsk]
      exact Nat.zero_le _
  · intro hF htne
    subst hF
    have hlen : 0 < (sortDescBy (fun p : String × Nat => p.2)
        (termDocFreq documents setIter)).length := by
      rw [(perm_sortDescBy _ _).length_eq]
      exact List.length_pos.mpr htne
    cases hsor : sortDescBy (fun p : String × Nat => p.2)
        (termDocFreq documents setIter) with
    | nil => rw [hsor] at hlen; simp at hlen
    | cons e rest =>
      refine ⟨e.1, ?_, ?_⟩
      · rw [selectedTerms, hsor]
        rfl
      · intro s
        have hetdf : e ∈ termDocFreq documents setIter :=
          (perm_sortDescBy _ _).mem_iff.mp (by
            rw [hsor]; exact List.mem_cons_self e rest)
        have he2 : e.2 = dfSpec documents e.1 :=
          tdf_entry_value documents setIter hvalid hetdf
        by_cases hsk : s ∈ alKeys (termDocFreq documents setIter)
        · rcases List.mem_map.mp hsk with ⟨es, hes, hest⟩
          have hes2 : es.2 = dfSpec documents s := by
            rw [tdf_entry_value documents setIter hvalid hes, hest]
          have hessorted : es ∈ sortDescBy (fun p : String × Nat => p.2)
              (termDocFreq documents setIter) :=
            (perm_sortDescBy _ _).mem_iff.mpr hes
          rw [hsor] at hessorted
          rcases List.mem_cons.mp hessorted with heq | hmem
          · have hh : dfSpec documents s = dfSpec documents e.1 := by
              rw [← hes2, heq, he2]
            exact hh.le
          · have hpw := pairwise_sortDescBy (fun p : String × Nat => p.2)
              (termDocFreq documents setIter)
            rw [hsor, List.pairwise_cons] at hpw
            have hle := hpw.1 es hmem
            rw [hes2, he2] at hle
            exact hle
        · rw [dfSpec_not_mem documents setIter hvalid s hsk]
          exact Nat.zero_le _

/-- Counterexample to C5 as stated: the tie-break among equal
document-frequency terms is NOT deterministic — it depends on the
iteration order of Python `set(terms)` (hash-dependent).  Two valid
iteration orders of the same collection `["aaa bbb"]` with
`maxFeatures = 1` yield different vocabularies. -/
theorem claim_C5_counterexample :
    ValidSetIter (fun ts => ts.dedup)
    ∧ ValidSetIter (fun ts => ts.dedup.reverse)
    ∧ vocab ["aaa bbb"] (fun ts => ts.dedup) 1 ≠
      vocab ["aaa bbb"] (fun ts => ts.dedup.reverse) 1 :=
  ⟨fun ts => List.Perm.refl _, fun ts => List.reverse_perm _, by decide⟩

/-- Concrete instantiation of `claim_C5`. -/
theorem claim_C5_witness :
    ValidSetIter (fun ts => ts.dedup)
    ∧ (alKeys (vocab ["aaa bbb", "aaa"] (fun ts => ts.dedup) 1)).length ≤ 1
    ∧ termDocFreq ["aaa bbb", "aaa"] (fun ts => ts.dedup) ≠ []
    ∧ ∃ t, alKeys (vocab ["aaa bbb", "aaa"] (fun ts => ts.dedup) 1) = [t] ∧
        ∀ s, dfSpec ["aaa bbb", "aaa"] s ≤ dfSpec ["aaa bbb", "aaa"] t := by
  refine ⟨fun ts => List.Perm.refl _, ?_, by decide, ?_⟩
  · exact (claim_C5 ["aaa bbb", "aaa"] (fun ts => ts.dedup)
      (fun ts => List.Perm.refl _) 1).1
  · exact (claim_C5 ["aaa bbb", "aaa"] (fun ts => ts.dedup)
      (fun ts => List.Perm.refl _) 1).2.2 rfl (by decide)

/-- Concrete instantiation of `claim_C9`. -/
theorem claim_C9_witness :
    ValidSetIter (fun ts => ts.dedup)
    ∧ (["aaa bbb", "aaa"] : List String).get? 0 = some "aaa bbb"
    ∧ ∃ v, (fit_transform ["aaa bbb", "aaa"] (fun ts => ts.dedup) 50000).get? 0 =
        some v
      ∧ (alGet v ((alGet (vocab ["aaa bbb", "aaa"] (fun ts => ts.dedup) 50000)
          "aaa").getD 0)).isSome := by
  refine ⟨fun ts => List.Perm.refl _, rfl, ?_⟩
  obtain ⟨v, hv, _, hins⟩ := claim_C9 ["aaa bbb", "aaa"] (fun ts => ts.dedup)
    (fun ts => List.Perm.refl _) 50000 0 "aaa bbb" rfl
  exact ⟨v, hv, hins "aaa" (by decide) (by decide)⟩

/-! ## Vector similarity ranking (`src/vector_retrieval.py`,
`sparse_cosine_similarity` and `VectorRetrieval.search`) -/

/-- The Euclidean norm of a sparse vector:
`math.sqrt(sum(val * val for val in vec.values()))`. -/
noncomputable def vecNorm (v : List (Nat × ℝ)) : ℝ :=
  Real.sqrt ((v.map (fun p => p.2 * p.2)).sum)

/-- The sparse dot product: `val1 * vec2[idx]` summed over the indices of
`vec1` that are also in `vec2`. -/
noncomputable def vecDot (v1 v2 : List (Nat × ℝ)) : ℝ :=
  (v1.map (fun p =>
    match alGet v2 p.1 with
    | some w => p.2 * w
    | none => 0)).sum

/-- `sparse_cosine_similarity`: `0` when either vector is empty or either
norm is `0`, else `dot / (norm1 * norm2)`. -/
noncomputable def sparse_cosine_similarity (v1 v2 : List (Nat × ℝ)) : ℝ :=
  if v1 = [] ∨ v2 = [] then 0
  else if vecNorm v1 = 0 ∨ vecNorm v2 = 0 then 0
  else vecDot v1 v2 / (vecNorm v1 * vecNorm v2)

/-- The ranking core of `VectorRetrieval.search`, after the query has
been vectorized: empty result for an empty query vector; otherwise score
every document vector, keep scores `> 0`, sort descending by score
(Python's stable sort) and truncate to `top_k`. -/
noncomputable def searchVR (query_vector : List (Nat × ℝ))
    (doc_vectors : List (List (Nat × ℝ))) (doc_ids : List String)
    (top_k : Nat) : List (String × ℝ) :=
  if query_vector = [] then [] else
  (sortDescBy (fun p => p.2)
    ((List.range doc_vectors.length).filterMap (fun i =>
      if 0 < sparse_cosine_similarity query_vector (doc_vectors.getD i []) then
        some (doc_ids.getD i "",
          sparse_cosine_similarity query_vector (doc_vectors.getD i []))
      else none))).take top_k

theorem vecNorm_nil : vecNorm ([] : List (Nat × ℝ)) = 0 := by
  rw [vecNorm]
  simp

/-- C6: vector search returns a descending-by-score sequence of length at
most `top_k` whose every entry has a positive score equal to the sparse
cosine similarity of the query vector with some document vector; the
similarity is `0` whenever either norm is `0` and equals
`dot / (norm1 * norm2)` otherwise. -/
theorem claim_C6 (query_vector : List (Nat × ℝ))
    (doc_vectors : List (List (Nat × ℝ))) (doc_ids : List String)
    (top_k : Nat) :
    ((searchVR query_vector doc_vectors doc_ids top_k).length ≤ top_k)
    ∧ (searchVR query_vector doc_vectors doc_ids top_k).Pairwise
        (fun a b => b.2 ≤ a.2)
    ∧ (∀ p ∈ searchVR query_vector doc_vectors doc_ids top_k,
        0 < p.2 ∧ ∃ i, i < doc_vectors.length ∧ p.1 = doc_ids.getD i "" ∧
          p.2 = sparse_cosine_similarity query_vector (doc_vectors.getD i []))
    ∧ (∀ v1 v2 : List (Nat × ℝ), vecNorm v1 = 0 ∨ vecNorm v2 = 0 →
        sparse_cosine_similarity v1 v2 = 0)
    ∧ (∀ v1 v2 : List (Nat × ℝ), vecNorm v1 ≠ 0 → vecNorm v2 ≠ 0 →
        sparse_cosine_similarity v1 v2 =
          vecDot v1 v2 / (vecNorm v1 * vecNorm v2)) := by
  refine ⟨?_, ?_, ?_, ?_, ?_⟩
  · rw [searchVR]
    by_cases hq : query_vector = []
    · rw [if_pos hq]
      simp
    · rw [if_neg hq]
      rw [List.length_take]
      exact min_le_left _ _
  · rw [searchVR]
    by_cases hq : query_vector = []
    · rw [if_pos hq]
      simp
    · rw [if_neg hq]
      exact List.Pairwise.sublist (List.take_sublist _ _)
        (pairwise_sortDescBy (fun p : String × ℝ => p.2) _)
  · intro p hp
    rw [searchVR] at hp
    by_cases hq : query_vector = []
    · rw [if_pos hq] at hp
      simp at hp
    · rw [if_neg hq] at hp
      have hp2 := (List.take_sublist _ _).subset hp
      have hp3 := (perm_sortDescBy (fun p : String × ℝ => p.2) _).mem_iff.mp hp2
      rcases List.mem_filterMap.mp hp3 with ⟨i, hi, hfi⟩
      by_cases hpos : 0 < sparse_cosine_similarity query_vector
          (doc_vectors.getD i [])
      · rw [if_pos hpos] at hfi
        have hpe : p = (doc_ids.getD i "", sparse_cosine_similarity
            query_vector (doc_vectors.getD i [])) :=
          (Option.some.injEq .. ▸ hfi).symm
        rw [hpe]
        exact ⟨hpos, i, List.mem_range.mp hi, rfl, rfl⟩
      · rw [if_neg hpos] at hfi
        simp at hfi
  · intro v1 v2 h
    rw [sparse_cosine_similarity]
    by_cases he : v1 = [] ∨ v2 = []
    · rw [if_pos he]
    · rw [if_neg he, if_pos h]
  · intro v1 v2 h1 h2
    have he1 : v1 ≠ [] := by
      intro hc
      rw [hc, vecNorm_nil] at h1
      exact h1 rfl
    have he2 : v2 ≠ [] := by
      intro hc
      rw [hc, vecNorm_nil] at h2
      exact h2 rfl
    rw [sparse_cosine_similarity, if_neg ?_, if_neg ?_]
    · intro hc
      rcases hc with hc | hc
      · exact h1 hc
      · exact h2 hc
    · intro hc
      rcases hc with hc | hc
      · exact he1 hc
      · exact he2 hc

/-- Concrete instantiation of `claim_C6` (the zero-norm clause at an
empty second vector). -/
theorem claim_C6_witness :
    (vecNorm ([] : List (Nat × ℝ)) = 0 ∨
      vecNorm ([] : List (Nat × ℝ)) = 0)
    ∧ sparse_cosine_similarity [((0 : Nat), (1 : ℝ))] [] = 0 :=
  ⟨Or.inr vecNorm_nil,
   (claim_C6 [((0 : Nat), (1 : ℝ))] [] [] 0).2.2.2.1 [((0 : Nat), (1 : ℝ))] []
     (Or.inr vecNorm_nil)⟩

end SearchEngine
